import Mathlib

/-!
A verification development for the deduplicating virtual file system
(`file_system/` package: `_dir_tree_handler.py`, `virtual_file_system.py`,
`_utils/count_manager.py`).

The directory tree document is a rose tree whose nodes are the source's
3-element lists `[is_dir, metadata, content]`; Python dicts are modelled as
association lists that preserve insertion order (assignment to an existing
key keeps its position, a new key is appended, exactly like a Python dict).
Paths are the source's "list paths": `[]` is the current directory,
`["/"]` is the root, a leading `"/"` marks an absolute path.  The mutable
`DirTreeHandler` object is modelled by the pair (tree, current path);
the `_old_dir` save/restore machinery is invisible at the public-method
granularity because every public method restores it.  The wall clock
(`__get_current_time`) is passed in as an explicit `now : String`.
-/

namespace VFSModel

/-- The error family of `errors.py`, plus `keyError`/`osError` for the raw
Python `KeyError`/`OSError` that can escape on states the checks do not
guard (never reached in the verified runs). -/
inductive Err where
  | invalidPath
  | pathExists
  | pathNotExists
  | dirOfPathNotExists
  | pathIsNotDir
  | pathIsNotFile
  | invalidOperation
  | invalidCurrentDirOperation
  | invalidNamingConvention
  | counterExists
  | counterNotExists
  | fileIDNotFound
  | keyError
  | osError
deriving DecidableEq, Repr

deriving instance DecidableEq for Except

/-- Node metadata: a Python dict from string keys to string values.
Key `"0"` is the creation time, key `"1"` the last-modified time
(`MetadataIndex` in `_dir_tree_handler.py`). -/
abbrev Metadata := List (String × String)

/-- Python dict assignment `m[k] = v`: an existing key keeps its position
and gets the new value, a fresh key is appended. -/
def mdSet (m : Metadata) (k v : String) : Metadata :=
  if m.any (fun e => e.1 = k) then m.map (fun e => if e.1 = k then (k, v) else e)
  else m ++ [(k, v)]

/-- Python dict lookup on metadata. -/
def mdGet (m : Metadata) (k : String) : Option String :=
  match m with
  | [] => none
  | (k0, v0) :: rest => if k0 = k then some v0 else mdGet rest k

mutual
/-- A tree node, the source's `[is_dir, metadata, content]` list: a directory
carries an ordered child dict, a file carries its content digest.  A freshly
created file's content is the empty dict `{}` in the source; every modelled
operation observes it only through Python falsiness (`if not result`), which
is indistinguishable from the empty string, so it is modelled as `""`. -/
inductive Node where
  | dir (md : Metadata) (children : Children)
  | file (md : Metadata) (content : String)
deriving DecidableEq

/-- The ordered child dict of a directory node (insertion-ordered, names
unique in any tree built by the modelled operations). -/
inductive Children where
  | nil
  | cons (name : String) (node : Node) (rest : Children)
deriving DecidableEq
end

namespace Children

/-- Python dict lookup `content[name]`. -/
def find : Children → String → Option Node
  | .nil, _ => none
  | .cons k n rest, name => if k = name then some n else find rest name

/-- Python dict assignment `content[name] = node`: replace in place if the
key exists, else append. -/
def setKey : Children → String → Node → Children
  | .nil, name, node => .cons name node .nil
  | .cons k n rest, name, node =>
      if k = name then .cons k node rest else .cons k n (setKey rest name node)

/-- Python dict `content.pop(name)` (the key is present in every guarded
call site; a missing key simply removes nothing here, the callers that could
hit Python's `KeyError` surface `Err.keyError` themselves). -/
def eraseKey : Children → String → Children
  | .nil, _ => .nil
  | .cons k n rest, name => if k = name then rest else .cons k n (eraseKey rest name)

/-- Python `list(content.keys())`. -/
def keys : Children → List String
  | .nil => []
  | .cons k _ rest => k :: keys rest

end Children

namespace Node

/-- `note[NoteIndex.is_dir]`. -/
def isDir : Node → Bool
  | .dir _ _ => true
  | .file _ _ => false

/-- `note[NoteIndex.metadata]`. -/
def md : Node → Metadata
  | .dir m _ => m
  | .file m _ => m

/-- Children of a directory (files have none). -/
def childs : Node → Children
  | .dir _ ch => ch
  | .file _ _ => .nil

/-- Set the last-modified metadata entry
(`note[metadata][MetadataIndex.last_modify_time] = now`). -/
def setLastMod (now : String) : Node → Node
  | .dir m ch => .dir (mdSet m "1" now) ch
  | .file m c => .file (mdSet m "1" now) c

/-- `note[NoteIndex.content] = h` for a file node.  Every call site is
guarded by a file-kind check, so the directory branch is never reached. -/
def setContent (h : String) : Node → Node
  | .file m _ => .file m h
  | .dir m ch => .dir m ch

end Node

mutual
/-- Walk a list of child names down from a node; intermediate steps descend
through directory children only (a file has no children), the final node may
be of either kind. -/
def Node.walk : Node → List String → Option Node
  | n, [] => some n
  | .dir _ ch, c :: cs => Children.walkFind ch c cs
  | .file _ _, _ :: _ => none

/-- Helper of `Node.walk`: find the child named `c`, then continue. -/
def Children.walkFind : Children → String → List String → Option Node
  | .nil, _, _ => none
  | .cons k n rest, c, cs => if k = c then n.walk cs else Children.walkFind rest c cs
end

mutual
/-- Rebuild the tree with `f` applied to the node reached by the given child
names (no change if the path does not resolve). -/
def Node.updateAt : Node → List String → (Node → Node) → Node
  | n, [], f => f n
  | .dir m ch, c :: cs, f => .dir m (Children.updateAtKey ch c cs f)
  | .file m h, _ :: _, _ => .file m h

/-- Helper of `Node.updateAt`: descend into the child named `c`. -/
def Children.updateAtKey : Children → String → List String → (Node → Node) → Children
  | .nil, _, _, _ => .nil
  | .cons k n rest, c, cs, f =>
      if k = c then .cons k (n.updateAt cs f) rest
      else .cons k n (Children.updateAtKey rest c cs f)
end

mutual
/-- Erase every file's content digest, keeping shape and all metadata:
two trees have equal `scrub` images exactly when they agree on everything
except the digest bindings. -/
def Node.scrub : Node → Node
  | .dir m ch => .dir m (Children.scrubCh ch)
  | .file m _ => .file m ""

/-- Pointwise `Node.scrub` on a child dict. -/
def Children.scrubCh : Children → Children
  | .nil => .nil
  | .cons k n rest => .cons k n.scrub (Children.scrubCh rest)
end

mutual
/-- `__update_child_last_modified_time_recursively`'s effect on the target
subtree: set the last-modified entry of every node (the directory itself,
every descendant directory and file) to `now`. -/
def Node.stampAll (now : String) : Node → Node
  | .dir m ch => .dir (mdSet m "1" now) (Children.stampAllCh now ch)
  | .file m c => .file (mdSet m "1" now) c

/-- Pointwise `Node.stampAll` on a child dict. -/
def Children.stampAllCh (now : String) : Children → Children
  | .nil => .nil
  | .cons k n rest => .cons k (n.stampAll now) (Children.stampAllCh now rest)
end

/-! ## Path algebra (`_dir_tree_handler.py`)

A list path is absolute when its first element is `"/"`; `[]` denotes the
current directory.  The handler's `_current_dir_path` always starts with
`"/"`; `cwdNames cwd = cwd.drop 1` are the child names from the root. -/

/-- `__to_absolute_path`. -/
def to_absolute_path (cwd path : List String) : List String :=
  if path = [] then cwd
  else if path.headD "" = "/" then path
  else cwd ++ path

/-- `__is_path_contained(container_path, contained_path)`: after making both
absolute, is `contained` a list prefix of `container`? -/
def is_path_contained (cwd container contained : List String) : Bool :=
  (to_absolute_path cwd contained).isPrefixOf (to_absolute_path cwd container)

/-- `__goto_dir`: resolve a path that must denote a directory, as the
absolute path it lands on; `none` when a step is missing or is a file.
(The source's `index_begin` split on a leading `"/"` is exactly dropping
the head of the absolutised path.) -/
def goto_dir (t : Node) (cwd path : List String) : Option (List String) :=
  let a := to_absolute_path cwd path
  match t.walk (a.drop 1) with
  | some n => if n.isDir then some a else none
  | none => none

/-- The mutation paths of `move`/`copy` run `__goto_dir` without checking the
result; a failed descent leaves the cursor where it was, so they continue at
the unchanged current directory. -/
def goto_dir_or_stay (t : Node) (cwd path : List String) : List String :=
  match goto_dir t cwd path with
  | some a => a
  | none => cwd

/-- `__goto_path`'s classification of a path: `none` when it does not exist,
`some n` for the node it denotes.  `[]` is the current directory and `["/"]`
the root (both directories); otherwise the parent is resolved with
`__goto_dir` and the last component looked up among its children. -/
def goto_path (t : Node) (cwd path : List String) : Option Node :=
  if path = [] then t.walk (cwd.drop 1)
  else if path = ["/"] then some t
  else
    match goto_dir t cwd path.dropLast with
    | none => none
    | some pa =>
        match t.walk (pa.drop 1) with
        | some parent => Children.find parent.childs (path.getLastD "")
        | none => none

/-- `is_path_exists`. -/
def is_path_exists (t : Node) (cwd path : List String) : Bool :=
  (goto_path t cwd path).isSome

/-- Replace the child dict entry `name` of the directory at absolute path
`a` (a Python dict assignment on `current[content]`). -/
def setChildAt (t : Node) (a : List String) (name : String) (child : Node) : Node :=
  t.updateAt (a.drop 1) (fun n =>
    match n with
    | .dir m ch => .dir m (ch.setKey name child)
    | .file m c => .file m c)

/-- Pop the child dict entry `name` of the directory at absolute path `a`. -/
def eraseChildAt (t : Node) (a : List String) (name : String) : Node :=
  t.updateAt (a.drop 1) (fun n =>
    match n with
    | .dir m ch => .dir m (ch.eraseKey name)
    | .file m c => .file m c)

/-- Look up the child `name` of the node at absolute path `a`. -/
def childAt (t : Node) (a : List String) (name : String) : Option Node :=
  match t.walk (a.drop 1) with
  | some n => Children.find n.childs name
  | none => none

/-- Apply `f` to the node at absolute path `a`. -/
def updateNodeAt (t : Node) (a : List String) (f : Node → Node) : Node :=
  t.updateAt (a.drop 1) f

/-! ## Timestamp maintenance -/

/-- The loop body of `__update_parent_last_modified_time_recursively`:
starting from the root, for each item run `__goto_dir([item])` (an absolute
jump for `"/"`, otherwise a one-step descent that silently stays put if the
child is missing or is a file) and set the last-modified entry of the node
now under the cursor. `pos` is the cursor as child names from the root. -/
def stampChain (t : Node) (pos items : List String) (now : String) : Node :=
  match items with
  | [] => t
  | item :: rest =>
      let pos2 :=
        if item = "/" then []
        else
          match t.walk (pos ++ [item]) with
          | some n => if n.isDir then pos ++ [item] else pos
          | none => pos
      let t2 := t.updateAt pos2 (Node.setLastMod now)
      stampChain t2 pos2 rest now

/-- `__update_parent_last_modified_time_recursively(path)`.  After the
existence check (against the caller's cursor) the source jumps to the root
*before* absolutising, so the path is absolutised against `['/']` and the
loop walks `abs.dropLast` — whose first item is always `"/"`, stamping the
root's own metadata. -/
def update_parent_last_modified_time_recursively (t : Node) (cwd path : List String)
    (now : String) : Except Err Node :=
  if is_path_exists t cwd path then
    let a := if path = [] then ["/"]
             else if path.headD "" = "/" then path
             else "/" :: path
    .ok (stampChain t [] a.dropLast now)
  else .error .pathNotExists

/-! ## The handler state and its public operations -/

/-- The `DirTreeHandler` state: document tree plus current-directory path
(`_current_dir_path`, always `"/"`-headed).  The `_current_dir`/`_old_dir`
object pointers are path-resolved here; this coincides with the source as
long as the current directory is never detached from the tree, which holds
for every operation sequence the `VirtualFileSystem` layer can issue. -/
structure DT where
  tree : Node
  cwd : List String
deriving DecidableEq

/-- A handler over an empty document: tree `[True, {}, {}]`, cursor `['/']`. -/
def freshDT : DT := ⟨.dir [] .nil, ["/"]⟩

namespace DT

/-- `is_path_exists` on the handler. -/
def exists_path (dt : DT) (path : List String) : Bool :=
  is_path_exists dt.tree dt.cwd path

/-- `chdir`. -/
def chdir (dt : DT) (path : List String) : Except Err DT :=
  match goto_path dt.tree dt.cwd path with
  | none => .error .pathNotExists
  | some n =>
      if n.isDir then .ok { dt with cwd := to_absolute_path dt.cwd path }
      else .error .pathIsNotDir

/-- `is_dir`. -/
def is_dir (dt : DT) (path : List String) : Except Err Bool :=
  match goto_path dt.tree dt.cwd path with
  | none => .error .pathNotExists
  | some n => .ok n.isDir

/-- `get_dir_content`. -/
def get_dir_content (dt : DT) (path : List String) : Except Err (List String) :=
  match goto_path dt.tree dt.cwd path with
  | none => .error .pathNotExists
  | some n => if n.isDir then .ok n.childs.keys else .error .pathIsNotDir

/-- `get_file_hash`. -/
def get_file_hash (dt : DT) (path : List String) : Except Err String :=
  match goto_path dt.tree dt.cwd path with
  | none => .error .pathNotExists
  | some n =>
      match n with
      | .dir _ _ => .error .pathIsNotFile
      | .file _ c => if c = "" then .error .fileIDNotFound else .ok c

/-- `set_file_hash`: resolve like `get_file_hash`, then assign the content
slot of the file node; no timestamp is touched. -/
def set_file_hash (dt : DT) (path : List String) (h : String) : Except Err DT :=
  match goto_path dt.tree dt.cwd path with
  | none => .error .pathNotExists
  | some n =>
      if n.isDir then .error .pathIsNotFile
      else
        let pa := goto_dir_or_stay dt.tree dt.cwd path.dropLast
        .ok { dt with
              tree := updateNodeAt dt.tree (pa ++ [path.getLastD ""]) (Node.setContent h) }

/-- `__create_note` (shared body of `mkdir` and `create_file`). -/
def create_note (dt : DT) (path : List String) (mkDirNode : Bool) (now : String) :
    Except Err DT :=
  if path = [] then .error .invalidCurrentDirOperation
  else if path.getLastD "" = "" then .error .invalidNamingConvention
  else if (path.getLastD "").data.contains '/' then .error .invalidNamingConvention
  else
    match goto_dir dt.tree dt.cwd path.dropLast with
    | none => .error .dirOfPathNotExists
    | some pa =>
        let fresh : Node :=
          if mkDirNode then .dir [("0", now), ("1", now)] .nil
          else .file [("0", now), ("1", now)] ""
        let t1 := setChildAt dt.tree pa (path.getLastD "") fresh
        match update_parent_last_modified_time_recursively t1 pa [path.getLastD ""] now with
        | .ok t2 => .ok { dt with tree := t2 }
        | .error e => .error e

/-- `mkdir`. -/
def mkdir (dt : DT) (path : List String) (now : String) : Except Err DT :=
  dt.create_note path true now

/-- `create_file`. -/
def create_file (dt : DT) (path : List String) (now : String) : Except Err DT :=
  dt.create_note path false now

/-- `delete`. -/
def delete (dt : DT) (path : List String) (now : String) : Except Err DT :=
  if path = [] then .error .invalidCurrentDirOperation
  else if ¬ dt.exists_path path then .error .pathNotExists
  else
    let pa := goto_dir_or_stay dt.tree dt.cwd path.dropLast
    match update_parent_last_modified_time_recursively dt.tree pa [path.getLastD ""] now with
    | .error e => .error e
    | .ok t1 =>
        match childAt t1 pa (path.getLastD "") with
        | none => .error .keyError
        | some _ => .ok { dt with tree := eraseChildAt t1 pa (path.getLastD "") }

/-- `move`.  Checks in source order, then: stamp ancestors of the source
(root only, because the path is re-absolutised at the root), pop the source
node, insert it at the destination, stamp again, and finally stamp the whole
moved subtree (a directory) or the node itself (a file) with `now`. -/
def move (dt : DT) (src_path dst_path : List String) (now : String) : Except Err DT :=
  if is_path_contained dt.cwd dst_path src_path then .error .invalidOperation
  else if is_path_contained dt.cwd [] src_path then .error .invalidCurrentDirOperation
  else if src_path = [] ∨ dst_path = [] then .error .invalidCurrentDirOperation
  else if ¬ dt.exists_path src_path ∨ ¬ dt.exists_path dst_path.dropLast then
    .error .pathNotExists
  else if dst_path.getLastD "" = "" then .error .invalidNamingConvention
  else if (dst_path.getLastD "").data.contains '/' then .error .invalidNamingConvention
  else
    let spa := goto_dir_or_stay dt.tree dt.cwd src_path.dropLast
    match update_parent_last_modified_time_recursively dt.tree spa [src_path.getLastD ""] now with
    | .error e => .error e
    | .ok t1 =>
        match childAt t1 spa (src_path.getLastD "") with
        | none => .error .keyError
        | some note =>
            let t2 := eraseChildAt t1 spa (src_path.getLastD "")
            let dpa := goto_dir_or_stay t2 dt.cwd dst_path.dropLast
            let t3 := setChildAt t2 dpa (dst_path.getLastD "") note
            match update_parent_last_modified_time_recursively t3 dpa [dst_path.getLastD ""] now with
            | .error e => .error e
            | .ok t4 =>
                if note.isDir then
                  .ok { dt with
                        tree := updateNodeAt t4 (dpa ++ [dst_path.getLastD ""]) (Node.stampAll now) }
                else
                  .ok { dt with
                        tree := updateNodeAt t4 (dpa ++ [dst_path.getLastD ""]) (Node.setLastMod now) }

/-- `copy`: like `move` but the source is deep-copied (value semantics here)
and neither the current-directory-containment check on the source nor the
source-side timestamp pass is performed. -/
def copy (dt : DT) (src_path dst_path : List String) (now : String) : Except Err DT :=
  if is_path_contained dt.cwd dst_path src_path then .error .invalidOperation
  else if src_path = [] ∨ dst_path = [] then .error .invalidCurrentDirOperation
  else if ¬ dt.exists_path src_path ∨ ¬ dt.exists_path dst_path.dropLast then
    .error .pathNotExists
  else if dst_path.getLastD "" = "" then .error .invalidNamingConvention
  else if (dst_path.getLastD "").data.contains '/' then .error .invalidNamingConvention
  else
    let spa := goto_dir_or_stay dt.tree dt.cwd src_path.dropLast
    match childAt dt.tree spa (src_path.getLastD "") with
    | none => .error .keyError
    | some note =>
        let dpa := goto_dir_or_stay dt.tree dt.cwd dst_path.dropLast
        let t1 := setChildAt dt.tree dpa (dst_path.getLastD "") note
        match update_parent_last_modified_time_recursively t1 dpa [dst_path.getLastD ""] now with
        | .error e => .error e
        | .ok t2 =>
            if note.isDir then
              .ok { dt with
                    tree := updateNodeAt t2 (dpa ++ [dst_path.getLastD ""]) (Node.stampAll now) }
            else
              .ok { dt with
                    tree := updateNodeAt t2 (dpa ++ [dst_path.getLastD ""]) (Node.setLastMod now) }

end DT

/-! ## The reference-count ledger (`_utils/count_manager.py`)

The sqlite table `id_count(id TEXT PRIMARY KEY, count INTEGER)` is a list of
rows; counts are sqlite INTEGERs.  `UPDATE`/`DELETE` on a missing row are
successful no-ops in SQLite (affected-row count 0), they do not raise
`sqlite3.Error`, so `sub_quote_count_for_id`'s `except` arm is unreachable
and the function is total. -/

abbrev Ledger := List (String × Int)

/-- Row lookup by id. -/
def ledgerGet (l : Ledger) (id0 : String) : Option Int :=
  match l with
  | [] => none
  | (k, v) :: rest => if k = id0 then some v else ledgerGet rest id0

/-- `create_quote_count_for_id`: INSERT with count 1, `CounterExists` on a
primary-key violation. -/
def create_quote_count_for_id (l : Ledger) (id0 : String) : Except Err Ledger :=
  if (ledgerGet l id0).isSome then .error .counterExists
  else .ok (l ++ [(id0, 1)])

/-- `add_quote_count_for_id`: UPDATE count+1; if no row was affected, create
the row (total: the create cannot hit `CounterExists`). -/
def add_quote_count_for_id (l : Ledger) (id0 : String) : Ledger :=
  if (ledgerGet l id0).isSome then
    l.map (fun r => if r.1 = id0 then (r.1, r.2 + 1) else r)
  else l ++ [(id0, 1)]

/-- `sub_quote_count_for_id`: UPDATE count-1 on the row (a no-op when the id
is absent), then DELETE the row if its count is now 0; the returned flag is
the DELETE's affected-row count. -/
def sub_quote_count_for_id (l : Ledger) (id0 : String) : Bool × Ledger :=
  let l1 := l.map (fun r => if r.1 = id0 then (r.1, r.2 - 1) else r)
  let deleted := l1.any (fun r => r.1 = id0 && r.2 = 0)
  (deleted, l1.filter (fun r => !(r.1 = id0 && r.2 = 0)))

/-! ## Inner-path conversion (`virtual_file_system.py`)

Python string primitives `strip('/')`, `split('/')`, `'/'.join`, substring
`"//" in s` are modelled on the character lists underlying `String`. -/

/-- Python `s.split(c)` for a one-character separator (keeps empty pieces,
never returns an empty list). -/
def splitOnChar (c : Char) : List Char → List (List Char)
  | [] => [[]]
  | x :: xs =>
      match splitOnChar c xs with
      | [] => [[]]
      | p :: ps => if x = c then [] :: p :: ps else (x :: p) :: ps

/-- Python `s.strip('/')`: drop the separator from both ends. -/
def stripSlashes (l : List Char) : List Char :=
  ((l.dropWhile (fun c => c = '/')).reverse.dropWhile (fun c => c = '/')).reverse

/-- Python `"//" in s`: two adjacent slashes occur. -/
def hasDoubleSlash : List Char → Bool
  | c1 :: c2 :: rest => (c1 = '/' && c2 = '/') || hasDoubleSlash (c2 :: rest)
  | _ => false

/-- Python `'/'.join(pieces)` on strings. -/
def joinSlash : List String → String
  | [] => ""
  | [x] => x
  | x :: xs => x ++ "/" ++ joinSlash xs

/-- `__check_inner_path_validity` + `__convert_inner_path_to_list_path`:
reject a path containing `"//"`, map `""` to `[]` and `"/"` to `["/"]`,
otherwise strip outer slashes, split on `/`, and re-prepend `"/"` when the
original path was absolute. -/
def convert_inner_path_to_list_path (s : String) : Except Err (List String) :=
  if hasDoubleSlash s.data then .error .invalidPath
  else if s = "" then .ok []
  else if s = "/" then .ok ["/"]
  else
    let pieces := (splitOnChar '/' (stripSlashes s.data)).map (fun cs => String.mk cs)
    if s.data.headD ' ' = '/' then .ok ("/" :: pieces) else .ok pieces

/-- `__convert_list_path_to_inner_path`. -/
def convert_list_path_to_inner_path (l : List String) : String :=
  match l with
  | [] => ""
  | p :: rest => if p = "/" then "/" ++ joinSlash rest else joinSlash (p :: rest)

/-- `__join_two_inner_paths` (second path relative). -/
def join_two_inner_paths (p1 p2 : String) : String :=
  if p1 = "" then p2
  else if p1.data.getLastD ' ' = '/' then p1 ++ p2
  else p1 ++ "/" ++ p2

/-! ## The extension filter of the `_ex` copies -/

/-- Python `s.lower()`: lowercase character by character. -/
def pyLower (s : String) : String :=
  String.mk (s.data.map Char.toLower)

/-- The test applied to every regular file by `__copy_dir_from_outside_ex`
(line 671) and `__copy_dir_to_outside_ex` (line 713):
`basename.split('.')[-1].lower() in type_filter`. -/
def extension_filter (name : String) (type_filter : List String) : Bool :=
  type_filter.contains (pyLower (String.mk ((splitOnChar '.' name.data).getLastD [])))

/-- Modelled from the spec: "include only regular files whose filename
suffix (after the last `.`, lowercased) is in `extensions`; the literal
empty string in `extensions` matches files with no `.` in their basename."
The suffix after the last `.` is the maximal dot-free tail of the name. -/
def spec_extension_filter (name : String) (extensions : List String) : Bool :=
  if name.data.contains '.' then
    extensions.contains
      (pyLower (String.mk ((name.data.reverse.takeWhile (fun c => c ≠ '.')).reverse)))
  else extensions.contains ""

/-! ## The `VirtualFileSystem` orchestrator

Host-filesystem facts (existence, regular-file kind, containment of the
system root) live outside the model: an external regular file is given by
its digest, an external directory by an `OEntry` tree.  The object store
(`EntityFiles/`) is the list of blob names present. -/

abbrev Store := List String

/-- The orchestrator state: per-user handler, shared ledger, shared store. -/
structure VState where
  dt : DT
  ledger : Ledger
  store : Store
deriving DecidableEq

/-- A freshly initialised root: empty tree, empty ledger, no blobs. -/
def freshV : VState := ⟨freshDT, [], []⟩

namespace VState

/-- `is_file_exist_via_file_id`: does `EntityFiles/<file_id>` exist? -/
def is_file_exist_via_file_id (st : VState) (file_id : String) : Bool :=
  st.store.contains file_id

/-- `__copy_file_from_outside` from the inner-path checks on (the host-side
checks — outer existence, regular-file kind, root containment — precede
these and are outside the model; `digest` is the hash of the outer file).
Steps: reject the current directory, a missing parent, an existing target;
then either increment the ledger (digest already stored) or stage the blob
and create the ledger row; finally create the file node and bind the digest. -/
def copy_file_from_outside (st : VState) (digest : String) (inner_path : List String)
    (now : String) : Except Err VState :=
  if inner_path = [] then .error .invalidCurrentDirOperation
  else if ¬ st.dt.exists_path inner_path.dropLast then .error .dirOfPathNotExists
  else if st.dt.exists_path inner_path then .error .pathExists
  else do
    let st1 ←
      if st.is_file_exist_via_file_id digest then
        .ok { st with ledger := add_quote_count_for_id st.ledger digest }
      else do
        let l2 ← create_quote_count_for_id st.ledger digest
        .ok { st with store := st.store ++ [digest], ledger := l2 }
    let d1 ← st1.dt.create_file inner_path now
    let d2 ← d1.set_file_hash inner_path digest
    .ok { st1 with dt := d2 }

end VState

/-! Walks of the per-file reference-count updates used by `copy` and
`delete` (`__add_quote_count_for_files_in_dir`,
`__sub_quote_count_for_files_in_dir`).  The source re-resolves paths on
every step but the tree is not mutated during the walk, so the traversal is
the structural one over the resolved subtree, in child-dict order. -/

mutual
/-- Recursively increment the ledger for every file in a directory subtree
(`get_file_hash` raises `FileIDNotFound` on an unbound file). -/
def Node.addQuoteWalk : Node → Ledger → Except Err Ledger
  | .dir _ ch, l => Children.addQuoteWalkCh ch l
  | .file _ _, l => .ok l

/-- Child-dict traversal of `Node.addQuoteWalk`. -/
def Children.addQuoteWalkCh : Children → Ledger → Except Err Ledger
  | .nil, l => .ok l
  | .cons _ n rest, l =>
      match n with
      | .file _ c =>
          if c = "" then .error .fileIDNotFound
          else Children.addQuoteWalkCh rest (add_quote_count_for_id l c)
      | .dir _ _ => do
          let l2 ← n.addQuoteWalk l
          Children.addQuoteWalkCh rest l2
end

mutual
/-- Recursively decrement the ledger for every file in a directory subtree,
removing the blob whenever the decrement deleted the row (`os.remove` on a
missing blob is `Err.osError`). -/
def Node.subQuoteWalk : Node → Ledger → Store → Except Err (Ledger × Store)
  | .dir _ ch, l, s => Children.subQuoteWalkCh ch l s
  | .file _ _, l, s => .ok (l, s)

/-- Child-dict traversal of `Node.subQuoteWalk`. -/
def Children.subQuoteWalkCh : Children → Ledger → Store → Except Err (Ledger × Store)
  | .nil, l, s => .ok (l, s)
  | .cons _ n rest, l, s =>
      match n with
      | .file _ c =>
          if c = "" then .error .fileIDNotFound
          else
            let r := sub_quote_count_for_id l c
            if r.1 then
              if s.contains c then Children.subQuoteWalkCh rest r.2 (s.erase c)
              else .error .osError
            else Children.subQuoteWalkCh rest r.2 s
      | .dir _ _ => do
          let ⟨l2, s2⟩ ← n.subQuoteWalk l s
          Children.subQuoteWalkCh rest l2 s2
end

namespace VState

/-- `VirtualFileSystem.mkdir`. -/
def vfs_mkdir (st : VState) (path : String) (now : String) : Except Err VState := do
  let pl ← convert_inner_path_to_list_path path
  if st.dt.exists_path pl then .error .pathExists
  else do
    let d2 ← st.dt.mkdir pl now
    .ok { st with dt := d2 }

/-- `VirtualFileSystem.move`. -/
def vfs_move (st : VState) (src_path dst_path : String) (now : String) : Except Err VState := do
  let sl ← convert_inner_path_to_list_path src_path
  let dl ← convert_inner_path_to_list_path dst_path
  if st.dt.exists_path dl then .error .pathExists
  else do
    let d2 ← st.dt.move sl dl now
    .ok { st with dt := d2 }

/-- `VirtualFileSystem.copy`: tree clone first, then the ledger increments
(one per file leaf of the source). -/
def vfs_copy (st : VState) (src_path dst_path : String) (now : String) : Except Err VState := do
  let sl ← convert_inner_path_to_list_path src_path
  let dl ← convert_inner_path_to_list_path dst_path
  if st.dt.exists_path dl then .error .pathExists
  else do
    let d2 ← st.dt.copy sl dl now
    let isd ← d2.is_dir sl
    if isd then
      match goto_path d2.tree d2.cwd sl with
      | some n => do
          let l2 ← n.addQuoteWalk st.ledger
          .ok { st with dt := d2, ledger := l2 }
      | none => .error .pathNotExists
    else do
      let h ← d2.get_file_hash sl
      .ok { st with dt := d2, ledger := add_quote_count_for_id st.ledger h }

/-- `VirtualFileSystem.delete`: reference counts first (removing blobs whose
count hits zero), then the tree node. -/
def vfs_delete (st : VState) (path : String) (now : String) : Except Err VState := do
  if path = "" then .error .invalidCurrentDirOperation
  else do
    let pl ← convert_inner_path_to_list_path path
    let isd ← st.dt.is_dir pl
    if isd then
      match goto_path st.dt.tree st.dt.cwd pl with
      | some n => do
          let ⟨l2, s2⟩ ← n.subQuoteWalk st.ledger st.store
          let d2 ← st.dt.delete pl now
          .ok { st with dt := d2, ledger := l2, store := s2 }
      | none => .error .pathNotExists
    else do
      let h ← st.dt.get_file_hash pl
      let r := sub_quote_count_for_id st.ledger h
      let s2 ←
        if r.1 then
          if st.store.contains h then .ok (st.store.erase h) else .error .osError
        else .ok st.store
      let d2 ← st.dt.delete pl now
      .ok { st with dt := d2, ledger := r.2, store := s2 }

/-- `add_file_via_hash_value`. -/
def add_file_via_hash_value (st : VState) (path : String) (file_id : String)
    (now : String) : Except Err VState := do
  let pl ← convert_inner_path_to_list_path path
  if st.dt.exists_path pl then .error .pathExists
  else if ¬ st.is_file_exist_via_file_id file_id then .error .invalidOperation
  else do
    let d1 ← st.dt.create_file pl now
    let d2 ← d1.set_file_hash pl file_id
    .ok { st with dt := d2, ledger := add_quote_count_for_id st.ledger file_id }

end VState

/-! ## `compare_two_dir`

`get_files_in_dir` walks a directory with `chdir`/`get_dir_content`/
`get_file_hash` (restoring the cursor), producing the insertion-ordered dict
`relative path → digest`; the patch text is then accumulated with two
`for`/`+=` loops. -/

mutual
/-- The file dict collected from a directory node: child-dict order, files
keyed by `join_two_inner_paths prefix name`, recursion into subdirectories;
an unbound file raises `FileIDNotFound`. -/
def Node.collectFiles : Node → String → Except Err (List (String × String))
  | .dir _ ch, pre => Children.collectFilesCh ch pre
  | .file _ _, _ => .ok []

/-- Child-dict traversal of `Node.collectFiles`. -/
def Children.collectFilesCh : Children → String → Except Err (List (String × String))
  | .nil, _ => .ok []
  | .cons k n rest, pre =>
      match n with
      | .dir _ _ => do
          let a ← n.collectFiles (join_two_inner_paths pre k)
          let b ← Children.collectFilesCh rest pre
          .ok (a ++ b)
      | .file _ c =>
          if c = "" then .error .fileIDNotFound
          else do
            let b ← Children.collectFilesCh rest pre
            .ok ((join_two_inner_paths pre k, c) :: b)
end

/-- Dict lookup in a collected file dict. -/
def fdGet (m : List (String × String)) (k : String) : Option String :=
  match m with
  | [] => none
  | (k0, v0) :: rest => if k0 = k then some v0 else fdGet rest k

/-- The two accumulation loops of `compare_two_dir`: a `-key` line for every
base entry missing or differing in the patch dict, then a `+key` line for
every patch entry missing or differing in the base dict. -/
def diffText (base patch : List (String × String)) : String :=
  let minus := base.foldl (fun acc kv =>
    if (fdGet patch kv.1).isNone then acc ++ "-" ++ kv.1 ++ "\n"
    else if fdGet base kv.1 ≠ fdGet patch kv.1 then acc ++ "-" ++ kv.1 ++ "\n"
    else acc) ""
  patch.foldl (fun acc kv =>
    if (fdGet base kv.1).isNone then acc ++ "+" ++ kv.1 ++ "\n"
    else if fdGet patch kv.1 ≠ fdGet base kv.1 then acc ++ "+" ++ kv.1 ++ "\n"
    else acc) minus

/-- Resolve an inner-path string to a directory node the way the collector's
`self.chdir(dir_path)` does (conversion, then `PathNotExists` /
`PathIsNotDir`). -/
def VState.resolveDir (st : VState) (path : String) : Except Err Node := do
  let pl ← convert_inner_path_to_list_path path
  match goto_path st.dt.tree st.dt.cwd pl with
  | none => .error .pathNotExists
  | some n => if n.isDir then .ok n else .error .pathIsNotDir

/-- `compare_two_dir(base_dir_path, patch_dir_path)`. -/
def VState.compare_two_dir (st : VState) (base_dir_path patch_dir_path : String) :
    Except Err String := do
  let nb ← st.resolveDir base_dir_path
  let base_dict ← nb.collectFiles ""
  let np ← st.resolveDir patch_dir_path
  let patch_dict ← np.collectFiles ""
  .ok (diffText base_dict patch_dict)

/-! ## External directories and the filtered recursive copies

An outer directory entry is a regular file (named, with the digest of its
bytes), a subdirectory, or anything else (symlink, device, …) which the
walks skip. -/

mutual
/-- One `os.listdir` entry of an outer directory. -/
inductive OEntry where
  | ofile (name : String) (digest : String)
  | odir (name : String) (entries : OList)
  | oother (name : String)
deriving DecidableEq

/-- An outer directory listing, in `os.listdir` order. -/
inductive OList where
  | nil
  | cons (e : OEntry) (rest : OList)
deriving DecidableEq
end

/-- The inner-path checks and the `mkdir` that `__copy_dir_from_outside_ex`
performs before walking a directory listing (shared between the top-level
call and each recursive call on a subdirectory). -/
def enter_dir_from_outside (st : VState) (inner_path : List String) (now : String) :
    Except Err VState :=
  if inner_path = [] then .error .invalidCurrentDirOperation
  else if ¬ st.dt.exists_path inner_path.dropLast then .error .dirOfPathNotExists
  else if st.dt.exists_path inner_path then .error .pathExists
  else
    match st.dt.mkdir inner_path now with
    | .error e => .error e
    | .ok d2 => .ok { st with dt := d2 }

mutual
/-- Processing of one `os.listdir` entry by `__copy_dir_from_outside_ex`:
recurse into a subdirectory (checks, `mkdir`, walk), import a regular file
only when `extension_filter` accepts its basename, skip everything else. -/
def import_entry_ex (st : VState) (e : OEntry) (inner_path type_filter : List String)
    (now : String) : Except Err VState :=
  match e with
  | .odir name sub =>
      match enter_dir_from_outside st (inner_path ++ [name]) now with
      | .error err => .error err
      | .ok st1 => import_entries_ex st1 sub (inner_path ++ [name]) type_filter now
  | .ofile name digest =>
      if extension_filter name type_filter then
        st.copy_file_from_outside digest (inner_path ++ [name]) now
      else .ok st
  | .oother _ => .ok st

/-- The `for entry in os.listdir(outer_path)` loop of
`__copy_dir_from_outside_ex`. -/
def import_entries_ex (st : VState) (entries : OList) (inner_path type_filter : List String)
    (now : String) : Except Err VState :=
  match entries with
  | .nil => .ok st
  | .cons e rest =>
      match import_entry_ex st e inner_path type_filter now with
      | .error err => .error err
      | .ok st2 => import_entries_ex st2 rest inner_path type_filter now
end

/-- `__copy_dir_from_outside_ex` (host-side checks on the outer path are
outside the model; `entries` is the outer directory's listing). -/
def copy_dir_from_outside_ex (st : VState) (entries : OList) (inner_path : List String)
    (type_filter : List String) (now : String) : Except Err VState :=
  match enter_dir_from_outside st inner_path now with
  | .error e => .error e
  | .ok st1 => import_entries_ex st1 entries inner_path type_filter now

mutual
/-- `__copy_dir_to_outside_ex` restricted to a resolved subtree: the pairs
(relative outer path, digest) of the files it writes under the created
outer directory, in traversal order.  A file is exported only when
`extension_filter` accepts its name; `__copy_file_to_outside` raises
`FileIDNotFound` on an unbound file it does try to export. -/
def Node.exportDirEx : Node → String → List String → Except Err (List (String × String))
  | .dir _ ch, pre, type_filter => Children.exportDirExCh ch pre type_filter
  | .file _ _, _, _ => .ok []

/-- Child-dict traversal of `Node.exportDirEx`. -/
def Children.exportDirExCh : Children → String → List String → Except Err (List (String × String))
  | .nil, _, _ => .ok []
  | .cons k n rest, pre, type_filter =>
      match n with
      | .file _ c =>
          if extension_filter k type_filter then
            if c = "" then .error .fileIDNotFound
            else do
              let b ← Children.exportDirExCh rest pre type_filter
              .ok ((join_two_inner_paths pre k, c) :: b)
          else Children.exportDirExCh rest pre type_filter
      | .dir _ _ => do
          let a ← n.exportDirEx (join_two_inner_paths pre k) type_filter
          let b ← Children.exportDirExCh rest pre type_filter
          .ok (a ++ b)
end

/-- The outer-facing wrapper of `__copy_dir_to_outside_ex`: resolve the
inner path (must exist and be a directory), then walk. -/
def VState.copy_dir_to_outside_ex (st : VState) (inner_path : List String)
    (type_filter : List String) : Except Err (List (String × String)) := do
  if ¬ st.dt.exists_path inner_path then .error .pathNotExists
  else do
    let isd ← st.dt.is_dir inner_path
    if ¬ isd then .error .pathIsNotDir
    else
      match goto_path st.dt.tree st.dt.cwd inner_path with
      | some n => n.exportDirEx "" type_filter
      | none => .error .pathNotExists

/-- The handler invariant on the cursor: `_current_dir_path` starts with
`"/"` and resolves to a directory of the tree.  It holds of `freshDT` and is
preserved by every operation the `VirtualFileSystem` layer issues. -/
def cwdOk (dt : DT) : Bool :=
  dt.cwd.headD "" = "/" &&
  (match dt.tree.walk (dt.cwd.drop 1) with
   | some n => n.isDir
   | none => false)

/-- The content slot of the node reached by the given child names, when that
node is a file. -/
def contentAt (t : Node) (names : List String) : Option String :=
  match t.walk names with
  | some (.file _ c) => some c
  | _ => none

/-- Concatenation of a list of lines (each already newline-terminated). -/
def linesCat : List String → String
  | [] => ""
  | x :: xs => x ++ linesCat xs

/-- The `tag`-prefixed lines that `compare_two_dir` emits for dict `m`
against dict `other`: one line per entry of `m` whose key is missing from
`other` or bound there to a different digest, in the order of `m`. -/
def taggedLines (tag : String) (m other : List (String × String)) : List String :=
  (m.filter (fun kv => fdGet other kv.1 ≠ some kv.2)).map (fun kv => tag ++ kv.1 ++ "\n")

/-- The maximal suffix of a character list lying strictly after the last
occurrence of `c` (the whole list when `c` does not occur). -/
def afterLastChar (c : Char) : List Char → List Char
  | [] => []
  | x :: xs =>
      if c ∈ xs then afterLastChar c xs
      else if x = c then xs
      else x :: xs

/-- Character-level mirror of `joinSlash`. -/
def charJoin (c : Char) : List (List Char) → List Char
  | [] => []
  | [x] => x
  | x :: xs => x ++ c :: charJoin c xs

/-- A valid inner path: no two adjacent separators. -/
def validInnerPathB (s : String) : Bool := ¬ hasDoubleSlash s.data

/-- A legal node name: non-empty and free of `/`. -/
def validNameB (s : String) : Bool :=
  s ≠ "" && ¬ s.data.contains '/'

/-- A well-formed list path: either `[]`, or an absolute path `"/" :: names`,
or a relative path of names, every component a legal node name. -/
def validListPathB : List String → Bool
  | [] => true
  | p :: rest => (p = "/" || validNameB p) && rest.all validNameB

/-! ## Concrete states used by scenario runs, counterexamples and witnesses -/

/-- Is an `Except` a success? -/
def isOkE {α : Type} : Except Err α → Bool
  | .ok _ => true
  | .error _ => false

/-- A handler whose tree holds directories `/x/y` and whose current
directory is `/x/y` (so the source path `/x` of a copy strictly contains the
current directory). -/
def dtCwdInX : DT :=
  ⟨.dir [] (.cons "x" (.dir [] (.cons "y" (.dir [] .nil) .nil)) .nil), ["/", "x", "y"]⟩

/-- A handler with a single directory `/d`, cursor at the root. -/
def dtWithD : DT := ⟨.dir [] (.cons "d" (.dir [] .nil) .nil), ["/"]⟩

/-- A handler with a single unbound file `/f` (content slot empty), cursor
at the root. -/
def dtUnboundF : DT := ⟨.dir [] (.cons "f" (.file [] "") .nil), ["/"]⟩

/-- An inner directory holding one regular file `a` (no `.` in the name)
with digest `d`. -/
def treeDotless : Node := .dir [] (.cons "a" (.file [] "d") .nil)

/-- A state with two directories: `/d1` holding file `f` (digest `h`) and
subdirectory `s` with file `g` (digest `h2`); `/d2` holding only file `f`
(digest `h`). -/
def vCompare : VState :=
  ⟨⟨.dir []
      (.cons "d1"
        (.dir []
          (.cons "f" (.file [] "h")
            (.cons "s" (.dir [] (.cons "g" (.file [] "h2") .nil)) .nil)))
        (.cons "d2" (.dir [] (.cons "f" (.file [] "h") .nil)) .nil)),
    ["/"]⟩, [("h", 2), ("h2", 1)], ["h", "h2"]⟩

/-- A state with one bound file `/w` (digest `hw`), consistent ledger and
store. -/
def vBoundW : VState := ⟨⟨.dir [] (.cons "w" (.file [] "hw") .nil), ["/"]⟩, [("hw", 1)], ["hw"]⟩

/-! # Theorems on the claims -/

/-- **C2.** The claim (and `sub_quote_count_for_id`'s own docstring) says a
decrement on a digest with no row fails with `CounterNotExists`.  In the
code the UPDATE and the DELETE are both successful no-ops on a missing row
and `sqlite3.Error` is never raised, so the call just returns `False` and
leaves the ledger unchanged: evaluation at the failing input, a ledger
holding only a row for `"y"`, decremented at the absent id `"x"`. -/
theorem sub_quote_missing_id_no_error :
    sub_quote_count_for_id [("y", 2)] "x" = (false, [("y", 2)]) := by decide

/-- **C3.** The claim says no operation ever writes a timestamp into the
root's metadata.  But `__update_parent_last_modified_time_recursively`
returns to the root *before* absolutising its argument, so the stamped
prefix always begins with `"/"` and the loop's first iteration writes the
last-modified key `"1"` into the root's metadata: already the first `mkdir
['a']` on a fresh tree leaves the root's metadata equal to `[("1", now)]`,
not empty. -/
theorem mkdir_stamps_root_metadata (now : String) :
    (freshDT.mkdir ["a"] now).map (fun dt => dt.tree.md) = .ok [("1", now)] := rfl

/-- **C1.** The deduplicating lifecycle, for any digest `h1` and clock
reading `tm`: importing the same content at `/a.txt` and `/b.txt` on a fresh
root leaves exactly the blob `h1` in the store and the single ledger row
`(h1, 2)`, with both files listed; deleting `/a.txt` keeps the blob and
leaves the row `(h1, 1)`; deleting `/b.txt` removes the blob and leaves no
ledger row.  (`h1 ≠ ""` because an empty digest is the tree's "unbound"
sentinel; real digests are 64 hex characters.) -/
theorem import_twice_delete_twice_lifecycle (h1 tm : String) (hne : h1 ≠ "") :
    (do
      let s1 ← freshV.copy_file_from_outside h1 ["/", "a.txt"] tm
      let s2 ← s1.copy_file_from_outside h1 ["/", "b.txt"] tm
      let names ← s2.dt.get_dir_content ["/"]
      let s3 ← s2.vfs_delete "/a.txt" tm
      let s4 ← s3.vfs_delete "/b.txt" tm
      pure (s2.store, s2.ledger, names, s3.store, s3.ledger, s4.store, s4.ledger)) =
    .ok ([h1], [(h1, 2)], ["a.txt", "b.txt"], [h1], [(h1, 1)], [], []) := by
  simp [freshV, freshDT, VState.copy_file_from_outside, VState.vfs_delete,
    VState.is_file_exist_via_file_id, DT.exists_path, DT.create_file, DT.create_note,
    DT.delete, DT.get_dir_content, DT.get_file_hash, DT.set_file_hash, DT.is_dir,
    is_path_exists, goto_path, goto_dir, goto_dir_or_stay, to_absolute_path,
    Node.walk, Children.walkFind, Node.childs, Children.find, Node.isDir,
    setChildAt, eraseChildAt, childAt, updateNodeAt, Node.updateAt, Children.updateAtKey,
    update_parent_last_modified_time_recursively, stampChain, Node.setLastMod,
    Node.setContent, mdSet, Children.keys, Children.setKey, Children.eraseKey,
    create_quote_count_for_id, add_quote_count_for_id, sub_quote_count_for_id,
    ledgerGet, convert_inner_path_to_list_path, hasDoubleSlash, stripSlashes,
    splitOnChar, Bind.bind, Except.bind, pure, Except.pure, hne]

/-- Witness for C1: the lifecycle at the concrete digest `"h1"`. -/
theorem import_twice_delete_twice_lifecycle_witness :
    (do
      let s1 ← freshV.copy_file_from_outside "h1" ["/", "a.txt"] "t"
      let s2 ← s1.copy_file_from_outside "h1" ["/", "b.txt"] "t"
      let names ← s2.dt.get_dir_content ["/"]
      let s3 ← s2.vfs_delete "/a.txt" "t"
      let s4 ← s3.vfs_delete "/b.txt" "t"
      pure (s2.store, s2.ledger, names, s3.store, s3.ledger, s4.store, s4.ledger)) =
    .ok (["h1"], [("h1", 2)], ["a.txt", "b.txt"], ["h1"], [("h1", 1)], [], []) :=
  import_twice_delete_twice_lifecycle "h1" "t" (by decide)

/-- **C5, counterexample.** The claim says `copy` rejects whenever the
source "is the current directory or contains the current directory".  On a
tree with directories `/x/y` and current directory `/x/y`, the source `/x`
contains the current directory, yet `copy /x /z` runs the checks of
`DirTreeHandler.copy` — which has no current-directory-containment test —
and succeeds. -/
theorem copy_allows_source_containing_cwd :
    is_path_contained dtCwdInX.cwd [] ["/", "x"] = true ∧
    isOkE (dtCwdInX.copy ["/", "x"] ["/", "z"] "t") = true := by decide

/-- **C5, amended.** The internal `move` and `copy` both reject with
`InvalidOperation` — before any mutation — when the (absolutised)
destination lies inside the source (in particular `copy /d /d/e`); both
reject with `InvalidCurrentDirOperation` when the source or destination is
passed as the empty current-directory path; `move` additionally rejects with
`InvalidCurrentDirOperation` whenever the source is or contains the current
directory; but `copy` performs no such containment check on a non-empty
source, and neither operation checks the destination against the current
directory. -/
theorem move_copy_rejection_rules (dt : DT) (src dst : List String) (tm : String) :
    (is_path_contained dt.cwd dst src = true →
      dt.move src dst tm = .error .invalidOperation ∧
      dt.copy src dst tm = .error .invalidOperation) ∧
    (is_path_contained dt.cwd dst src = false →
      is_path_contained dt.cwd [] src = true →
      dt.move src dst tm = .error .invalidCurrentDirOperation) ∧
    (is_path_contained dt.cwd dst src = false →
      is_path_contained dt.cwd [] src = false →
      src = [] ∨ dst = [] →
      dt.move src dst tm = .error .invalidCurrentDirOperation) ∧
    (is_path_contained dt.cwd dst src = false →
      src = [] ∨ dst = [] →
      dt.copy src dst tm = .error .invalidCurrentDirOperation) := by
  refine ⟨fun h1 => ⟨?_, ?_⟩, fun h1 h2 => ?_, fun h1 h2 h3 => ?_, fun h1 h3 => ?_⟩
  · unfold DT.move; rw [if_pos h1]
  · unfold DT.copy; rw [if_pos h1]
  · unfold DT.move; rw [if_neg (by simp [h1]), if_pos h2]
  · unfold DT.move; rw [if_neg (by simp [h1]), if_neg (by simp [h2]), if_pos h3]
  · unfold DT.copy; rw [if_neg (by simp [h1]), if_pos h3]

/-- Witness for C5: on a tree holding `/d` with the cursor at the root,
`copy /d /d/e` (destination inside source) fails with `InvalidOperation`. -/
theorem move_copy_rejection_rules_witness :
    is_path_contained dtWithD.cwd ["/", "d", "e"] ["/", "d"] = true ∧
    dtWithD.copy ["/", "d"] ["/", "d", "e"] "t" = .error .invalidOperation :=
  ⟨by decide,
   ((move_copy_rejection_rules dtWithD ["/", "d"] ["/", "d", "e"] "t").1 (by decide)).2⟩

/-! ## Navigation lemmas -/

/-- `Children.walkFind` is lookup followed by a continued walk. -/
theorem walkFind_eq_find_bind : (ch : Children) → (c : String) → (cs : List String) →
    Children.walkFind ch c cs = (Children.find ch c).bind (fun n => n.walk cs)
  | .nil, _, _ => rfl
  | .cons k n rest, c, cs => by
      by_cases h : k = c
      · simp [Children.walkFind, Children.find, h]
      · simp [Children.walkFind, Children.find, h, walkFind_eq_find_bind rest c cs]

/-- Unfolding `Node.walk` at a directory. -/
theorem walk_dir_cons (m : Metadata) (ch : Children) (c : String) (cs : List String) :
    Node.walk (.dir m ch) (c :: cs) = (Children.find ch c).bind (fun n => n.walk cs) := by
  simp [Node.walk, walkFind_eq_find_bind]

/-- Walking a concatenation walks the parts in sequence. -/
theorem walk_append (xs : List String) : ∀ (t : Node) (ys : List String),
    t.walk (xs ++ ys) = (t.walk xs).bind (fun n => n.walk ys) := by
  induction xs with
  | nil => intro t ys; simp [Node.walk]
  | cons x xs ih =>
      intro t ys
      match t with
      | .file m c => simp [Node.walk]
      | .dir m ch =>
          rw [List.cons_append, walk_dir_cons, walk_dir_cons]
          cases Children.find ch x with
          | none => simp
          | some n => simp [ih]

/-- `dropLast` and `getLastD` reassemble a non-empty list. -/
theorem dropLast_append_getLastD {α : Type} (l : List α) (d : α) (h : l ≠ []) :
    l.dropLast ++ [l.getLastD d] = l := by
  rw [List.getLastD_eq_getLast?, List.getLast?_eq_getLast _ h]
  exact List.dropLast_append_getLast h

/-- Peeling the last component off an absolutised path. -/
theorem to_absolute_path_decomp (cwd q : List String) (hc : cwd ≠ [])
    (hq : q ≠ []) (hq2 : q ≠ ["/"]) :
    (to_absolute_path cwd q).drop 1 =
      (to_absolute_path cwd q.dropLast).drop 1 ++ [q.getLastD ""] := by
  have hlen : 1 ≤ cwd.length := by
    cases cwd with
    | nil => exact absurd rfl hc
    | cons _ _ => simp
  match q, hq with
  | a :: t, _ =>
    by_cases ha : a = "/"
    · subst ha
      match t, hq2 with
      | b :: t', _ =>
        have h1 : to_absolute_path cwd ("/" :: b :: t') = "/" :: b :: t' := by
          simp [to_absolute_path]
        have h2 : ("/" :: b :: t').dropLast = "/" :: (b :: t').dropLast :=
          List.dropLast_cons₂ ..
        have h3 : to_absolute_path cwd ("/" :: (b :: t').dropLast) =
            "/" :: (b :: t').dropLast := by
          simp [to_absolute_path]
        rw [h1, h2, h3]
        simp only [List.drop_one, List.tail_cons, List.getLastD_cons]
        have h4 := dropLast_append_getLastD (b :: t') "/" (by simp)
        rw [List.getLastD_cons] at h4
        exact h4.symm
    · match t with
      | [] =>
          have h1 : to_absolute_path cwd [a] = cwd ++ [a] := by
            simp [to_absolute_path, ha]
          have h2 : to_absolute_path cwd ([a].dropLast) = cwd := by
            simp [to_absolute_path]
          rw [h1, h2, List.drop_append_of_le_length hlen]
          simp
      | b :: t' =>
          have h1 : to_absolute_path cwd (a :: b :: t') = cwd ++ (a :: b :: t') := by
            simp [to_absolute_path, ha]
          have h2 : (a :: b :: t').dropLast = a :: (b :: t').dropLast :=
            List.dropLast_cons₂ ..
          have h3 : to_absolute_path cwd (a :: (b :: t').dropLast) =
              cwd ++ (a :: (b :: t').dropLast) := by
            simp [to_absolute_path, ha]
          rw [h1, h2, h3, List.drop_append_of_le_length hlen,
              List.drop_append_of_le_length hlen]
          simp only [List.append_assoc, List.cons_append, List.getLastD_cons]
          have h4 := dropLast_append_getLastD (b :: t') a (by simp)
          rw [List.getLastD_cons] at h4
          rw [h4]

/-- If a path resolves then so does the path with its last component
dropped (given the cursor invariant). -/
theorem exists_path_dropLast (dt : DT) (hcwd : cwdOk dt = true) (pl : List String)
    (h : dt.exists_path pl = true) : dt.exists_path pl.dropLast = true := by
  have hcwd2 := hcwd
  unfold cwdOk at hcwd2
  rw [Bool.and_eq_true] at hcwd2
  obtain ⟨hh, hw2⟩ := hcwd2
  have hc : dt.cwd ≠ [] := by
    intro he; rw [he] at hh; simp at hh
  have hwalk : ∃ w, dt.tree.walk dt.cwd.tail = some w := by
    cases hW : dt.tree.walk (dt.cwd.drop 1) with
    | some w => exact ⟨w, by rw [← List.drop_one]; exact hW⟩
    | none => rw [hW] at hw2; simp at hw2
  by_cases h0 : pl = []
  · subst h0; simpa using h
  by_cases h1 : pl = ["/"]
  · subst h1
    obtain ⟨w, hW⟩ := hwalk
    simp [DT.exists_path, is_path_exists, goto_path, hW]
  unfold DT.exists_path is_path_exists goto_path at h
  rw [if_neg h0, if_neg h1] at h
  cases gd : goto_dir dt.tree dt.cwd pl.dropLast with
  | none => rw [gd] at h; simp at h
  | some pa =>
    by_cases hdl : pl.dropLast = []
    · obtain ⟨w, hW⟩ := hwalk
      simp [DT.exists_path, is_path_exists, goto_path, hdl, hW]
    by_cases hdl2 : pl.dropLast = ["/"]
    · simp [DT.exists_path, is_path_exists, goto_path, hdl2]
    unfold goto_dir at gd
    simp only at gd
    have hdec := to_absolute_path_decomp dt.cwd pl.dropLast hc hdl hdl2
    cases hwa : dt.tree.walk ((to_absolute_path dt.cwd pl.dropLast).drop 1) with
    | none => rw [hwa] at gd; simp at gd
    | some n =>
      rw [hdec, walk_append] at hwa
      cases hwp : dt.tree.walk ((to_absolute_path dt.cwd pl.dropLast.dropLast).drop 1) with
      | none => rw [hwp] at hwa; simp at hwa
      | some m =>
        rw [hwp] at hwa
        simp only [Option.some_bind] at hwa
        match m, hwa with
        | .file mf cf, hwa => simp [Node.walk] at hwa
        | .dir md0 ch, hwa =>
          rw [walk_dir_cons] at hwa
          unfold DT.exists_path is_path_exists goto_path
          rw [if_neg hdl, if_neg hdl2]
          have hgd2 : goto_dir dt.tree dt.cwd pl.dropLast.dropLast =
              some (to_absolute_path dt.cwd pl.dropLast.dropLast) := by
            unfold goto_dir
            simp only [hwp, Node.isDir, if_pos]
          rw [hgd2]
          simp only [hwp]
          cases hf : Children.find ch (pl.dropLast.getLastD "") with
          | none => rw [hf] at hwa; simp at hwa
          | some nn =>
              rw [List.getLastD_eq_getLast?] at hf
              simp [Node.childs, hf]

/-- **C6, counterexample.** The claim says every existing destination makes
`copy_from_outside` raise `PathExists`.  The inner path `""` resolves to the
current directory — an existing node — but `__copy_file_from_outside` checks
`if not inner_path` first and raises `InvalidCurrentDirOperation` instead. -/
theorem copy_from_outside_empty_path_not_pathExists :
    convert_inner_path_to_list_path "" = .ok ([] : List String) ∧
    is_path_exists freshV.dt.tree freshV.dt.cwd [] = true ∧
    freshV.copy_file_from_outside "d" [] "t" = .error .invalidCurrentDirOperation := by
  decide

/-- **C6, amended.** For every destination path that resolves to an existing
node, `mkdir`, `move`, `copy` and `add_file_via_hash_value` fail with
`PathExists` before touching tree, ledger or store; `copy_from_outside`
(file form) also fails with `PathExists` for every *non-empty* such path,
but for the empty current-directory path it fails with
`InvalidCurrentDirOperation` instead.  (All five checks precede every
mutation, so the state is unchanged.) -/
theorem no_overwrite_on_existing_path (st : VState) (p src : String)
    (pl sl : List String) (fid d tm : String)
    (hcwd : cwdOk st.dt = true)
    (hp : convert_inner_path_to_list_path p = .ok pl)
    (hs : convert_inner_path_to_list_path src = .ok sl)
    (hex : st.dt.exists_path pl = true) :
    st.vfs_mkdir p tm = .error .pathExists ∧
    st.vfs_move src p tm = .error .pathExists ∧
    st.vfs_copy src p tm = .error .pathExists ∧
    st.add_file_via_hash_value p fid tm = .error .pathExists ∧
    (pl ≠ [] → st.copy_file_from_outside d pl tm = .error .pathExists) ∧
    (pl = [] → st.copy_file_from_outside d pl tm = .error .invalidCurrentDirOperation) := by
  refine ⟨?_, ?_, ?_, ?_, fun hne => ?_, fun he => ?_⟩
  · simp [VState.vfs_mkdir, hp, hex, Bind.bind, Except.bind]
  · simp [VState.vfs_move, hp, hs, hex, Bind.bind, Except.bind]
  · simp [VState.vfs_copy, hp, hs, hex, Bind.bind, Except.bind]
  · simp [VState.add_file_via_hash_value, hp, hex, Bind.bind, Except.bind]
  · have hpar := exists_path_dropLast st.dt hcwd pl hex
    simp [VState.copy_file_from_outside, hne, hpar, hex, Bind.bind, Except.bind]
  · simp [VState.copy_file_from_outside, he]

/-- Witness for C6: on a state holding directory `/d`, all five operations
behave as stated. -/
theorem no_overwrite_on_existing_path_witness :
    (VState.mk dtWithD [] []).vfs_mkdir "/d" "t" = .error .pathExists ∧
    (VState.mk dtWithD [] []).vfs_move "s" "/d" "t" = .error .pathExists ∧
    (VState.mk dtWithD [] []).vfs_copy "s" "/d" "t" = .error .pathExists ∧
    (VState.mk dtWithD [] []).add_file_via_hash_value "/d" "f" "t" = .error .pathExists ∧
    (["/", "d"] ≠ ([] : List String) →
      (VState.mk dtWithD [] []).copy_file_from_outside "h" ["/", "d"] "t" = .error .pathExists) ∧
    (["/", "d"] = ([] : List String) →
      (VState.mk dtWithD [] []).copy_file_from_outside "h" ["/", "d"] "t" =
        .error .invalidCurrentDirOperation) :=
  no_overwrite_on_existing_path ⟨dtWithD, [], []⟩ "/d" "s" ["/", "d"] ["s"] "f" "h" "t"
    (by decide) (by decide) (by decide) (by decide)

/-- **C10.** For every inner path that resolves to a file node whose content
digest is unbound (the falsy empty slot), `VirtualFileSystem.delete` fails
with `FileIDNotFound` before any mutation: `get_file_hash` raises inside the
reference-count step, which precedes the ledger decrement, the blob removal
and the tree deletion. -/
theorem delete_unbound_file_fileIDNotFound (st : VState) (p : String)
    (pl : List String) (md0 : Metadata) (tm : String)
    (hcwd : cwdOk st.dt = true)
    (hp : convert_inner_path_to_list_path p = .ok pl)
    (hk : goto_path st.dt.tree st.dt.cwd pl = some (.file md0 "")) :
    st.vfs_delete p tm = .error .fileIDNotFound := by
  have hcwd2 := hcwd
  unfold cwdOk at hcwd2
  rw [Bool.and_eq_true] at hcwd2
  obtain ⟨hh, hw2⟩ := hcwd2
  have hpne : p ≠ "" := by
    intro h0
    subst h0
    have : pl = [] := by
      have : (Except.ok [] : Except Err (List String)) = .ok pl := by
        rw [← hp]; decide
      exact (Except.ok.injEq _ _ ▸ this).symm
    subst this
    unfold goto_path at hk
    rw [if_pos rfl] at hk
    rw [hk] at hw2
    simp [Node.isDir] at hw2
  simp [VState.vfs_delete, hpne, hp, DT.is_dir, DT.get_file_hash, hk, Node.isDir,
    Bind.bind, Except.bind]

/-- Witness for C10: deleting `/f` on a tree whose file `f` has an empty
content slot. -/
theorem delete_unbound_file_fileIDNotFound_witness :
    (VState.mk dtUnboundF [] []).vfs_delete "/f" "t" = .error .fileIDNotFound :=
  delete_unbound_file_fileIDNotFound ⟨dtUnboundF, [], []⟩ "/f" ["/", "f"] [] "t"
    (by decide) (by decide) (by decide)

/-! ## Lemmas on `splitOnChar` (Python `split`) -/

/-- A split is never the empty list. -/
theorem splitOnChar_ne_nil (c : Char) (l : List Char) : splitOnChar c l ≠ [] := by
  cases l with
  | nil => simp [splitOnChar]
  | cons x xs =>
      unfold splitOnChar
      cases splitOnChar c xs with
      | nil => simp
      | cons p ps => by_cases h : x = c <;> simp [h]

/-- A separator-free list splits into itself alone. -/
theorem splitOnChar_of_not_mem (c : Char) (l : List Char) (h : c ∉ l) :
    splitOnChar c l = [l] := by
  induction l with
  | nil => rfl
  | cons x xs ih =>
      have hx : x ≠ c := fun he => h (he ▸ List.mem_cons_self x xs)
      have hxs : c ∉ xs := fun hm => h (List.mem_cons_of_mem x hm)
      unfold splitOnChar
      rw [ih hxs]
      simp [hx]

/-- A one-piece split means the separator did not occur and the piece is the
whole input. -/
theorem splitOnChar_single (c : Char) : ∀ (l p : List Char),
    splitOnChar c l = [p] → p = l ∧ c ∉ l := by
  intro l
  induction l with
  | nil => intro p hp; simp [splitOnChar] at hp; simp [hp]
  | cons x xs ih =>
      intro p hp
      unfold splitOnChar at hp
      cases hsp : splitOnChar c xs with
      | nil => exact absurd hsp (splitOnChar_ne_nil c xs)
      | cons q qs =>
          rw [hsp] at hp
          by_cases hx : x = c
          · simp [hx] at hp
          · simp only [if_neg hx] at hp
            injection hp with hq hqs
            subst hqs
            obtain ⟨hqx, hcx⟩ := ih q hsp
            subst hqx
            refine ⟨hq.symm, ?_⟩
            intro hmem
            rcases List.mem_cons.mp hmem with h | h
            · exact hx h.symm
            · exact hcx h

/-- `afterLastChar` of a separator-free list is the list itself. -/
theorem afterLastChar_of_not_mem (c : Char) (l : List Char) (h : c ∉ l) :
    afterLastChar c l = l := by
  induction l with
  | nil => rfl
  | cons x xs ih =>
      have hx : x ≠ c := fun he => h (he ▸ List.mem_cons_self x xs)
      have hxs : c ∉ xs := fun hm => h (List.mem_cons_of_mem x hm)
      unfold afterLastChar
      simp [hxs, hx]

/-- The last piece of a split is the suffix after the last separator. -/
theorem getLastD_splitOnChar (c : Char) (l : List Char) :
    (splitOnChar c l).getLastD [] = afterLastChar c l := by
  induction l with
  | nil => rfl
  | cons x xs ih =>
      unfold splitOnChar afterLastChar
      cases hsp : splitOnChar c xs with
      | nil => exact absurd hsp (splitOnChar_ne_nil c xs)
      | cons p ps =>
          rw [hsp] at ih
          by_cases hx : x = c
          · simp only [if_pos hx]
            by_cases hmem : c ∈ xs
            · simp only [if_pos hmem]
              rw [← ih]
              rw [List.getLastD_eq_getLast?, List.getLastD_eq_getLast?,
                  List.getLast?_cons_cons]
            · have h1 : afterLastChar c xs = xs := afterLastChar_of_not_mem c xs hmem
              simp only [if_neg hmem, hx]
              rw [List.getLastD_eq_getLast?, List.getLast?_cons_cons,
                  ← List.getLastD_eq_getLast?, ih, h1]
          · simp only [if_neg hx]
            cases ps with
            | nil =>
                obtain ⟨hpxs, hcxs⟩ := splitOnChar_single c xs p hsp
                subst hpxs
                simp [hcxs, hx]
            | cons q qs =>
                have hmem : c ∈ xs := by
                  by_contra hno
                  rw [splitOnChar_of_not_mem c xs hno] at hsp
                  simp at hsp
                simp only [if_pos hmem]
                rw [← ih]
                rw [List.getLastD_eq_getLast?, List.getLastD_eq_getLast?,
                    List.getLast?_cons_cons, List.getLast?_cons_cons]

/-- `afterLastChar` is the reversed maximal separator-free tail. -/
theorem afterLastChar_eq_rev_takeWhile (c : Char) (l : List Char) :
    afterLastChar c l = (l.reverse.takeWhile (fun x => x ≠ c)).reverse := by
  induction l with
  | nil => rfl
  | cons x xs ih =>
      unfold afterLastChar
      rw [List.reverse_cons]
      by_cases hmem : c ∈ xs
      · have hne : (xs.reverse.takeWhile (fun x => decide (x ≠ c))).length ≠
            xs.reverse.length := by
          intro hlen
          have hpre := List.takeWhile_prefix (l := xs.reverse)
            (p := fun x => decide (x ≠ c))
          have heq := hpre.eq_of_length hlen
          rw [List.takeWhile_eq_self_iff] at heq
          have := heq c (by simpa using hmem)
          simp at this
        rw [if_pos hmem, List.takeWhile_append, if_neg (by simpa using hne), ih]
      · have hall : ∀ a ∈ xs.reverse, (fun x => decide (x ≠ c)) a = true := by
          intro a ha
          simp only [decide_eq_true_eq]
          intro hac
          exact hmem (hac ▸ List.mem_reverse.mp ha)
        rw [if_neg hmem]
        by_cases hx : x = c
        · subst hx
          rw [if_pos rfl, List.takeWhile_append_of_pos hall]
          simp
        · rw [if_neg hx, List.takeWhile_append_of_pos hall]
          simp [hx]

/-- **C4, counterexample.** The claim says a file whose basename has no `.`
is included exactly when `""` is in the extensions list.  For the dotless
basename `"a"` and extensions `[""]`, the code's test
`basename.split('.')[-1].lower() in extensions` compares the *whole* name
`"a"` (Python's `split` on an absent separator returns the whole string),
so the file is skipped in both filtered walks even though the spec's rule
includes it. -/
theorem dotless_name_filter_mismatch :
    extension_filter "a" [""] = false ∧
    spec_extension_filter "a" [""] = true ∧
    (copy_dir_from_outside_ex freshV (.cons (.ofile "a" "d") .nil) ["/", "imp"] [""]
        "t").map (fun st => (st.dt.exists_path ["/", "imp", "a"], st.store)) =
      .ok (false, []) ∧
    treeDotless.exportDirEx "" [""] = .ok [] := by decide

/-- **C4, amended.** The filter applied to every regular file by both
`__copy_dir_from_outside_ex` and `__copy_dir_to_outside_ex` includes a file
whose basename contains a `.` exactly when the lowercased suffix after the
last `.` is in the extensions list, and a file whose basename contains no
`.` exactly when its entire lowercased basename is in the extensions list
(the literal empty string only matches names ending in `.`). -/
theorem extension_filter_characterization (name : String) (exts : List String) :
    extension_filter name exts =
      if name.data.contains '.' then
        exts.contains
          (pyLower (String.mk ((name.data.reverse.takeWhile (fun x => x ≠ '.')).reverse)))
      else exts.contains (pyLower name) := by
  unfold extension_filter
  rw [getLastD_splitOnChar, afterLastChar_eq_rev_takeWhile]
  by_cases h : name.data.contains '.'
  · rw [if_pos h]
  · rw [if_neg h]
    have hnm : '.' ∉ name.data := by simpa using h
    have hall : name.data.reverse.takeWhile (fun x => decide (x ≠ '.')) =
        name.data.reverse := by
      rw [List.takeWhile_eq_self_iff]
      intro x hx
      simp only [decide_eq_true_eq]
      intro hxe
      exact hnm (hxe ▸ List.mem_reverse.mp hx)
    rw [hall, List.reverse_reverse]

/-! ## Frame lemmas for `set_file_hash` -/

/-- `setContent` never changes the scrub image. -/
theorem scrub_setContent (h : String) (t : Node) :
    (Node.setContent h t).scrub = t.scrub := by
  cases t <;> rfl

mutual
/-- Binding a digest somewhere in the tree does not change the scrub image
(shape, every metadata map, hence every timestamp). -/
theorem scrub_updateAt (h : String) : (t : Node) → (ns : List String) →
    (t.updateAt ns (Node.setContent h)).scrub = t.scrub
  | .file m c, [] => rfl
  | .dir m ch, [] => rfl
  | .file m c, _ :: _ => rfl
  | .dir m ch, c :: cs => by
      simp only [Node.updateAt, Node.scrub]
      rw [scrubCh_updateAtKey h ch c cs]

/-- Child-dict version of `scrub_updateAt`. -/
theorem scrubCh_updateAtKey (h : String) : (ch : Children) → (c : String) →
    (cs : List String) →
    (Children.updateAtKey ch c cs (Node.setContent h)).scrubCh = ch.scrubCh
  | .nil, _, _ => rfl
  | .cons k n rest, c, cs => by
      simp only [Children.updateAtKey]
      by_cases hk : k = c
      · simp only [if_pos hk, Children.scrubCh]
        rw [scrub_updateAt h n cs]
      · simp only [if_neg hk, Children.scrubCh]
        rw [scrubCh_updateAtKey h rest c cs]
end

/-- Updating the entry at one key leaves lookups at other keys unchanged. -/
theorem find_updateAtKey (c : String) (cs : List String) (f : Node → Node) :
    (ch : Children) → (d : String) →
    Children.find (Children.updateAtKey ch c cs f) d =
      if d = c then (Children.find ch c).map (fun n => n.updateAt cs f)
      else Children.find ch d
  | .nil, d => by
      by_cases hd : d = c <;> simp [Children.updateAtKey, Children.find, hd]
  | .cons k n rest, d => by
      simp only [Children.updateAtKey]
      by_cases hk : k = c
      · subst hk
        rw [if_pos rfl]
        by_cases hd : d = k
        · subst hd; simp [Children.find]
        · have hkd : ¬ k = d := fun he => hd he.symm
          simp [Children.find, hkd, hd]
      · rw [if_neg hk]
        by_cases hd : k = d
        · subst hd
          have hdc : ¬ k = c := hk
          simp [Children.find, hdc]
        · simp only [Children.find, if_neg hd]
          rw [find_updateAtKey c cs f rest d]
          by_cases hdc : d = c
          · simp [hdc, Children.find, if_neg hk]
          · simp [hdc]

/-- Binding a digest at one path leaves the content slot at every other
path unchanged. -/
theorem contentAt_updateAt (h : String) : ∀ (ns : List String) (t : Node)
    (ms : List String), ms ≠ ns →
    contentAt (t.updateAt ns (Node.setContent h)) ms = contentAt t ms := by
  intro ns
  induction ns with
  | nil =>
      intro t ms hne
      match t with
      | .dir m ch => rfl
      | .file m c =>
          match ms, hne with
          | x :: xs, _ => simp [contentAt, Node.updateAt, Node.setContent, Node.walk]
  | cons c cs ih =>
      intro t ms hne
      match t with
      | .file m c0 => rfl
      | .dir m ch =>
          match ms with
          | [] => simp [contentAt, Node.updateAt, Node.walk]
          | d :: ds =>
              simp only [contentAt, Node.updateAt, walk_dir_cons,
                find_updateAtKey c cs (Node.setContent h) ch d]
              by_cases hd : d = c
              · subst hd
                have hds : ds ≠ cs := by
                  intro he; exact hne (by rw [he])
                cases hf : Children.find ch d with
                | none => simp
                | some n =>
                    simp only [Option.map_some, Option.some_bind]
                    have := ih n ds hds
                    simpa [contentAt] using this
              · simp [hd]

/-- **C9.** A successful `set_file_hash` changes nothing but the target
file's content slot: the cursor is untouched, the scrub images agree (so
shape and the complete metadata map — creation and last-modified times — of
*every* node are identical), and the content slot at every other path is
unchanged. -/
theorem set_file_hash_changes_no_timestamps (dt : DT) (p : List String) (h : String)
    (dt2 : DT) (hok : dt.set_file_hash p h = .ok dt2) :
    dt2.cwd = dt.cwd ∧
    dt2.tree.scrub = dt.tree.scrub ∧
    ∀ names,
      names ≠ ((goto_dir_or_stay dt.tree dt.cwd p.dropLast) ++ [p.getLastD ""]).drop 1 →
      contentAt dt2.tree names = contentAt dt.tree names := by
  unfold DT.set_file_hash at hok
  split at hok
  · simp at hok
  · split at hok
    · simp at hok
    · simp only [Except.ok.injEq] at hok
      subst hok
      refine ⟨rfl, ?_, ?_⟩
      · exact scrub_updateAt h dt.tree _
      · intro names hne
        exact contentAt_updateAt h _ dt.tree names hne

/-! ## Lemmas for `compare_two_dir` -/

/-- The accumulation loop of `diffText`, characterised: it appends one line
per entry passing the literal two-branch test, in order. -/
theorem diff_foldl (tag : String) (fixed other : List (String × String)) :
    ∀ (l : List (String × String)) (acc : String),
      List.foldl (fun acc kv =>
        if (fdGet other kv.1).isNone then acc ++ tag ++ kv.1 ++ "\n"
        else if fdGet fixed kv.1 ≠ fdGet other kv.1 then acc ++ tag ++ kv.1 ++ "\n"
        else acc) acc l
      = acc ++ linesCat ((l.filter (fun kv =>
          (fdGet other kv.1).isNone ||
            decide (fdGet fixed kv.1 ≠ fdGet other kv.1))).map
          (fun kv => tag ++ kv.1 ++ "\n")) := by
  intro l
  induction l with
  | nil => intro acc; simp [linesCat]
  | cons kv rest ih =>
      intro acc
      rw [List.foldl_cons, ih]
      simp only [List.filter_cons]
      by_cases h1 : (fdGet other kv.1).isNone <;>
        by_cases h2 : fdGet fixed kv.1 = fdGet other kv.1 <;>
          simp [h1, h2, linesCat, String.append_assoc]

/-- `diffText` is the minus block followed by the plus block. -/
theorem diffText_eq (base patch : List (String × String)) :
    diffText base patch =
      linesCat ((base.filter (fun kv =>
          (fdGet patch kv.1).isNone ||
            decide (fdGet base kv.1 ≠ fdGet patch kv.1))).map
          (fun kv => "-" ++ kv.1 ++ "\n")) ++
      linesCat ((patch.filter (fun kv =>
          (fdGet base kv.1).isNone ||
            decide (fdGet patch kv.1 ≠ fdGet base kv.1))).map
          (fun kv => "+" ++ kv.1 ++ "\n")) := by
  unfold diffText
  rw [diff_foldl "-" base patch base, diff_foldl "+" patch base patch,
      String.empty_append]

/-- In a dict with distinct keys, every entry is found by its own key. -/
theorem fdGet_eq_some_of_mem_nodup : ∀ (m : List (String × String))
    (kv : String × String), kv ∈ m → (m.map Prod.fst).Nodup →
    fdGet m kv.1 = some kv.2 := by
  intro m
  induction m with
  | nil => intro kv h; simp at h
  | cons hd rest ih =>
      intro kv hmem hnd
      rw [List.map_cons, List.nodup_cons] at hnd
      obtain ⟨hnot, hnd2⟩ := hnd
      rcases List.mem_cons.mp hmem with he | hr
      · subst he; simp [fdGet]
      · have hne : hd.1 ≠ kv.1 := by
          intro he
          exact hnot (he ▸ List.mem_map_of_mem Prod.fst hr)
        simp only [fdGet, if_neg hne]
        exact ih kv hr hnd2

/-- A successful lookup comes from a member entry. -/
theorem fdGet_some_mem : ∀ (m : List (String × String)) (k v : String),
    fdGet m k = some v → (k, v) ∈ m := by
  intro m
  induction m with
  | nil => intro k v h; simp [fdGet] at h
  | cons hd rest ih =>
      intro k v h
      unfold fdGet at h
      by_cases he : hd.1 = k
      · rw [if_pos he] at h
        injection h with h
        exact List.mem_cons.mpr (Or.inl (by rw [← he, ← h]))
      · rw [if_neg he] at h
        exact List.mem_cons_of_mem hd (ih k v h)

/-- Under distinct keys, the loop's literal test agrees with "the other
dict does not bind this key to this digest". -/
theorem diff_filter_simplify (m other : List (String × String))
    (hnd : (m.map Prod.fst).Nodup) :
    m.filter (fun kv =>
        (fdGet other kv.1).isNone || decide (fdGet m kv.1 ≠ fdGet other kv.1)) =
      m.filter (fun kv => decide (fdGet other kv.1 ≠ some kv.2)) := by
  apply List.filter_congr
  intro kv hkv
  rw [fdGet_eq_some_of_mem_nodup m kv hkv hnd]
  cases ho : fdGet other kv.1 with
  | none => simp
  | some w =>
      by_cases hw : w = kv.2
      · subst hw; simp
      · have hw2 : ¬ kv.2 = w := fun hh => hw hh.symm
        simp [hw, hw2]

/-- String concatenation is empty only when both parts are. -/
theorem string_append_eq_empty (s t : String) : s ++ t = "" ↔ s = "" ∧ t = "" := by
  constructor
  · intro h
    have hd : s.data ++ t.data = [] := by
      rw [← String.data_append, h]
    obtain ⟨h1, h2⟩ := List.append_eq_nil.mp hd
    exact ⟨String.ext h1, String.ext h2⟩
  · rintro ⟨rfl, rfl⟩; rfl

/-- A concatenation of non-empty lines is empty only with no lines. -/
theorem linesCat_eq_empty (xs : List String) (hne : ∀ x ∈ xs, x ≠ "") :
    linesCat xs = "" ↔ xs = [] := by
  cases xs with
  | nil => simp [linesCat]
  | cons x rest =>
      simp only [linesCat]
      constructor
      · intro h
        exact absurd ((string_append_eq_empty x (linesCat rest)).mp h).1
          (hne x (List.mem_cons_self x rest))
      · intro h; simp at h

/-- A tag-key-newline line is never empty. -/
theorem tag_line_ne_empty (tag k : String) : tag ++ k ++ "\n" ≠ "" := by
  intro h
  have hd := congrArg String.data h
  rw [String.data_append, String.data_append] at hd
  simp at hd

/-- **C7.** `compare_two_dir` characterised: whenever both directory
arguments resolve and their file dicts collect successfully with distinct
keys, the output is exactly the ordered `-`-lines of the base entries not
matched in the patch dict followed by the ordered `+`-lines of the patch
entries not matched in the base dict; the output is empty exactly when the
two dicts agree at every key; and comparing a directory with itself yields
the empty patch. -/
theorem compare_two_dir_characterization (st : VState) (a b : String)
    (na nb : Node) (basem patchm : List (String × String))
    (ha : st.resolveDir a = .ok na) (hca : na.collectFiles "" = .ok basem)
    (hb : st.resolveDir b = .ok nb) (hcb : nb.collectFiles "" = .ok patchm)
    (hnda : (basem.map Prod.fst).Nodup) (hndb : (patchm.map Prod.fst).Nodup) :
    st.compare_two_dir a b =
      .ok (linesCat (taggedLines "-" basem patchm) ++
           linesCat (taggedLines "+" patchm basem)) ∧
    (st.compare_two_dir a b = .ok "" ↔ ∀ k, fdGet basem k = fdGet patchm k) ∧
    st.compare_two_dir a a = .ok "" := by
  have hmain : st.compare_two_dir a b =
      .ok (linesCat (taggedLines "-" basem patchm) ++
           linesCat (taggedLines "+" patchm basem)) := by
    unfold VState.compare_two_dir
    simp only [ha, hca, hb, hcb, Bind.bind, Except.bind]
    rw [diffText_eq, diff_filter_simplify basem patchm hnda,
        diff_filter_simplify patchm basem hndb]
    rfl
  have hself : st.compare_two_dir a a = .ok "" := by
    unfold VState.compare_two_dir
    simp only [ha, hca, Bind.bind, Except.bind]
    rw [diffText_eq, diff_filter_simplify basem basem hnda]
    have hfil : basem.filter (fun kv => decide (fdGet basem kv.1 ≠ some kv.2)) = [] := by
      rw [List.filter_eq_nil_iff]
      intro kv hkv
      simp [fdGet_eq_some_of_mem_nodup basem kv hkv hnda]
    rw [hfil]
    rfl
  refine ⟨hmain, ?_, hself⟩
  rw [hmain]
  constructor
  · intro h
    have hcat : linesCat (taggedLines "-" basem patchm) ++
        linesCat (taggedLines "+" patchm basem) = "" := by
      injection h
    obtain ⟨hm, hp⟩ := (string_append_eq_empty _ _).mp hcat
    have hml : taggedLines "-" basem patchm = [] := by
      rw [← linesCat_eq_empty _ ?hne]
      · exact hm
      case hne =>
        intro x hx
        obtain ⟨kv, _, hkv⟩ := List.mem_map.mp hx
        rw [← hkv]
        exact tag_line_ne_empty "-" kv.1
    have hpl : taggedLines "+" patchm basem = [] := by
      rw [← linesCat_eq_empty _ ?hne2]
      · exact hp
      case hne2 =>
        intro x hx
        obtain ⟨kv, _, hkv⟩ := List.mem_map.mp hx
        rw [← hkv]
        exact tag_line_ne_empty "+" kv.1
    unfold taggedLines at hml hpl
    rw [List.map_eq_nil_iff, List.filter_eq_nil_iff] at hml hpl
    have hbm : ∀ kv ∈ basem, fdGet patchm kv.1 = some kv.2 := by
      intro kv hkv
      have := hml kv hkv
      simpa using this
    have hpm : ∀ kv ∈ patchm, fdGet basem kv.1 = some kv.2 := by
      intro kv hkv
      have := hpl kv hkv
      simpa using this
    intro k
    cases hgb : fdGet basem k with
    | some v =>
        have hmem := fdGet_some_mem basem k v hgb
        exact (hbm (k, v) hmem).symm
    | none =>
        cases hgp : fdGet patchm k with
        | none => rfl
        | some w =>
            have hmem := fdGet_some_mem patchm k w hgp
            have := hpm (k, w) hmem
            rw [hgb] at this
            exact absurd this (by simp)
  · intro hagree
    have hfb : basem.filter (fun kv => decide (fdGet patchm kv.1 ≠ some kv.2)) = [] := by
      rw [List.filter_eq_nil_iff]
      intro kv hkv
      rw [← hagree kv.1]
      simp [fdGet_eq_some_of_mem_nodup basem kv hkv hnda]
    have hfp : patchm.filter (fun kv => decide (fdGet basem kv.1 ≠ some kv.2)) = [] := by
      rw [List.filter_eq_nil_iff]
      intro kv hkv
      rw [hagree kv.1]
      simp [fdGet_eq_some_of_mem_nodup patchm kv hkv hndb]
    unfold taggedLines
    rw [hfb, hfp]
    rfl

/-- Witness for C7: on `vCompare`, comparing `/d1` with `/d2` yields the
characterised patch (only `s/g` differs), and the emptiness and
self-comparison clauses hold. -/
theorem compare_two_dir_characterization_witness :
    (vCompare.compare_two_dir "/d1" "/d2" =
      .ok (linesCat (taggedLines "-" [("f", "h"), ("s/g", "h2")] [("f", "h")]) ++
           linesCat (taggedLines "+" [("f", "h")] [("f", "h"), ("s/g", "h2")]))) ∧
    (vCompare.compare_two_dir "/d1" "/d2" = .ok "" ↔
      ∀ k, fdGet [("f", "h"), ("s/g", "h2")] k = fdGet [("f", "h")] k) ∧
    vCompare.compare_two_dir "/d1" "/d1" = .ok "" := by
  have := compare_two_dir_characterization vCompare "/d1" "/d2"
    (.dir []
      (.cons "f" (.file [] "h")
        (.cons "s" (.dir [] (.cons "g" (.file [] "h2") .nil)) .nil)))
    (.dir [] (.cons "f" (.file [] "h") .nil))
    [("f", "h"), ("s/g", "h2")] [("f", "h")]
    (by decide) (by decide) (by decide) (by decide) (by decide) (by decide)
  exact this

/-! ## Lemmas on the inner-path conversions -/

/-- A surviving head of `dropWhile` fails the predicate. -/
theorem head_dropWhile_false (p : Char → Bool) (l : List Char) (x : Char)
    (h : (l.dropWhile p).head? = some x) : p x = false := by
  have h2 := List.head?_dropWhile_not p l
  rw [h] at h2
  exact h2

/-- A double slash anywhere in a suffix is one in the whole list. -/
theorem hasDoubleSlash_append_right (w : List Char) (hw : hasDoubleSlash w = true) :
    ∀ pre, hasDoubleSlash (pre ++ w) = true := by
  intro pre
  induction pre with
  | nil => simpa using hw
  | cons a rest ih =>
      rw [List.cons_append]
      match hr : rest ++ w with
      | [] =>
          have h2 := (List.append_eq_nil.mp hr).2
          rw [h2] at hw
          simp [hasDoubleSlash] at hw
      | b :: w2 =>
          unfold hasDoubleSlash
          rw [← hr, ih]
          simp

/-- `hasDoubleSlash` is the infix test for `['/', '/']`. -/
theorem hasDoubleSlash_iff_infix (l : List Char) :
    hasDoubleSlash l = true ↔ ['/', '/'] <:+: l := by
  induction l with
  | nil =>
      simp only [hasDoubleSlash]
      constructor
      · intro h; simp at h
      · intro ⟨s, t, h⟩
        have := congrArg List.length h
        simp at this
  | cons c1 rest ih =>
      cases rest with
      | nil =>
          simp only [hasDoubleSlash]
          constructor
          · intro h; simp at h
          · intro ⟨s, t, h⟩
            have := congrArg List.length h
            simp at this
            omega
      | cons c2 rest2 =>
          unfold hasDoubleSlash
          rw [List.infix_cons_iff]
          constructor
          · intro h
            rw [Bool.or_eq_true] at h
            rcases h with h1 | h2
            · rw [Bool.and_eq_true] at h1
              obtain ⟨ha, hb⟩ := h1
              left
              rw [decide_eq_true_eq] at ha hb
              subst ha; subst hb
              exact ⟨rest2, rfl⟩
            · right
              exact ih.mp h2
          · intro h
            rw [Bool.or_eq_true]
            rcases h with h1 | h2
            · rw [List.cons_prefix_cons] at h1
              obtain ⟨ha, h1⟩ := h1
              rw [List.cons_prefix_cons] at h1
              obtain ⟨hb, _⟩ := h1
              subst ha; subst hb
              simp
            · right
              exact ih.mpr h2

/-- The stripped list is a prefix of the left-stripped list. -/
theorem stripSlashes_isPrefix (l : List Char) :
    stripSlashes l <+: l.dropWhile (fun c => c = '/') := by
  unfold stripSlashes
  apply List.reverse_suffix.mp
  rw [List.reverse_reverse]
  exact List.dropWhile_suffix _

/-- The stripped list is an infix of the original. -/
theorem stripSlashes_within (l : List Char) : stripSlashes l <:+: l := by
  exact (stripSlashes_isPrefix l).isInfix.trans (List.dropWhile_suffix _).isInfix

/-- Stripping preserves the absence of `"//"`. -/
theorem stripSlashes_no_double (l : List Char) (h : hasDoubleSlash l = false) :
    hasDoubleSlash (stripSlashes l) = false := by
  by_contra hc
  rw [Bool.not_eq_false, hasDoubleSlash_iff_infix] at hc
  have := hc.trans (stripSlashes_within l)
  rw [← hasDoubleSlash_iff_infix] at this
  rw [this] at h
  simp at h

/-- A non-empty prefix starts like the whole list. -/
theorem isPrefix_head (l1 l2 : List Char) (h : l1 <+: l2) (x : Char)
    (hx : l1.head? = some x) : l2.head? = some x := by
  obtain ⟨t, rfl⟩ := h
  match l1, hx with
  | a :: l1', hx => simpa using hx

/-- The head of a stripped list is never the separator. -/
theorem stripSlashes_head (l : List Char) (x : Char)
    (h : (stripSlashes l).head? = some x) : ¬ x = '/' := by
  have h5 := isPrefix_head _ _ (stripSlashes_isPrefix l) x h
  have h6 := head_dropWhile_false (fun c => c = '/') l x h5
  simpa using h6

/-- The last element of a stripped list is never the separator. -/
theorem stripSlashes_last (l : List Char) (x : Char)
    (h : (stripSlashes l).getLast? = some x) : ¬ x = '/' := by
  unfold stripSlashes at h
  rw [List.getLast?_reverse] at h
  have h6 := head_dropWhile_false (fun c => c = '/') (l.dropWhile (fun c => c = '/')).reverse x h
  simpa using h6

/-- An element failing the predicate survives `dropWhile`. -/
theorem mem_dropWhile_of_not (p : Char → Bool) (c : Char) (hc : p c = false) :
    ∀ l : List Char, c ∈ l → c ∈ l.dropWhile p := by
  intro l
  induction l with
  | nil => intro h; simp at h
  | cons a rest ih =>
      intro h
      by_cases hp : p a = true
      · rw [List.dropWhile_cons_of_pos hp]
        rcases List.mem_cons.mp h with he | hm
        · rw [he] at hc; rw [hc] at hp; simp at hp
        · exact ih hm
      · rw [List.dropWhile_cons_of_neg hp]
        exact h

/-- A list with a non-separator element strips to something non-empty. -/
theorem stripSlashes_ne_nil (l : List Char) (c : Char) (hc : c ∈ l) (hne : ¬ c = '/') :
    stripSlashes l ≠ [] := by
  have hp : (fun x => decide (x = '/')) c = false := by simpa using hne
  have h1 : c ∈ l.dropWhile (fun x => x = '/') := mem_dropWhile_of_not _ c hp l hc
  have h2 : c ∈ (l.dropWhile (fun x => x = '/')).reverse := List.mem_reverse.mpr h1
  have h3 : c ∈ (l.dropWhile (fun x => x = '/')).reverse.dropWhile (fun x => x = '/') :=
    mem_dropWhile_of_not _ c hp _ h2
  intro he
  unfold stripSlashes at he
  rw [List.reverse_eq_nil_iff] at he
  rw [he] at h3
  simp at h3

/-- `dropWhile` is the identity when the head fails the predicate. -/
theorem dropWhile_eq_self_of_head (p : Char → Bool) (l : List Char)
    (h : ∀ x, l.head? = some x → p x = false) : l.dropWhile p = l := by
  match l with
  | [] => rfl
  | a :: rest =>
      have := h a rfl
      rw [List.dropWhile_cons_of_neg (by simp [this])]

/-- Stripping is the identity on a list with non-separator ends. -/
theorem stripSlashes_noop (l : List Char)
    (hh : ∀ x, l.head? = some x → ¬ x = '/')
    (hl : ∀ x, l.getLast? = some x → ¬ x = '/') : stripSlashes l = l := by
  unfold stripSlashes
  rw [dropWhile_eq_self_of_head _ l (fun x hx => by simpa using hh x hx)]
  rw [dropWhile_eq_self_of_head _ l.reverse
    (fun x hx => by
      rw [List.head?_reverse] at hx
      simpa using hl x hx)]
  exact List.reverse_reverse l

/-- The one-step equation of `splitOnChar`, with the inner split exposed. -/
theorem splitOnChar_cons_eq (c x : Char) (xs p : List Char) (ps : List (List Char))
    (hs : splitOnChar c xs = p :: ps) :
    splitOnChar c (x :: xs) = if x = c then [] :: p :: ps else (x :: p) :: ps := by
  unfold splitOnChar
  rw [hs]

/-- The characters of a `'/'.join` are the character-level join. -/
theorem joinSlash_data : ∀ l : List String,
    (joinSlash l).data = charJoin '/' (l.map String.data)
  | [] => rfl
  | [x] => rfl
  | x :: y :: xs => by
      show (x ++ "/" ++ joinSlash (y :: xs)).data = _
      rw [String.data_append, String.data_append, joinSlash_data (y :: xs)]
      show x.data ++ ['/'] ++ _ = x.data ++ '/' :: _
      rw [List.append_assoc]
      rfl

/-- Splitting after a separator-free block peels that block off. -/
theorem splitOnChar_append_sep (c : Char) (x : List Char) (hx : c ∉ x) :
    ∀ rest, splitOnChar c (x ++ c :: rest) = x :: splitOnChar c rest := by
  induction x with
  | nil =>
      intro rest
      rw [List.nil_append]
      cases hs : splitOnChar c rest with
      | nil => exact absurd hs (splitOnChar_ne_nil c rest)
      | cons p ps => rw [splitOnChar_cons_eq c c rest p ps hs]; simp
  | cons a x2 ih =>
      intro rest
      have ha : a ≠ c := fun he => hx (he ▸ List.mem_cons_self a x2)
      have hx2 : c ∉ x2 := fun hm => hx (List.mem_cons_of_mem a hm)
      rw [List.cons_append,
          splitOnChar_cons_eq c a (x2 ++ c :: rest) x2 (splitOnChar c rest) (ih hx2 rest)]
      simp [ha]

/-- Splitting a join of separator-free pieces recovers the pieces. -/
theorem splitOnChar_charJoin (c : Char) : ∀ ps : List (List Char), ps ≠ [] →
    (∀ p ∈ ps, c ∉ p) → splitOnChar c (charJoin c ps) = ps := by
  intro ps
  match ps with
  | [] => intro h; exact absurd rfl h
  | [x] =>
      intro _ hall
      show splitOnChar c x = [x]
      exact splitOnChar_of_not_mem c x (hall x (List.mem_cons_self x []))
  | x :: y :: ys =>
      intro _ hall
      show splitOnChar c (x ++ c :: charJoin c (y :: ys)) = x :: y :: ys
      rw [splitOnChar_append_sep c x (hall x (List.mem_cons_self x (y :: ys)))]
      rw [splitOnChar_charJoin c (y :: ys) (by simp)
        (fun p hp => hall p (List.mem_cons_of_mem x hp))]

/-- Joining the pieces of a split recovers the input (unconditionally). -/
theorem charJoin_splitOnChar (c : Char) : ∀ l : List Char,
    charJoin c (splitOnChar c l) = l := by
  intro l
  induction l with
  | nil => rfl
  | cons x xs ih =>
      cases hs : splitOnChar c xs with
      | nil => exact absurd hs (splitOnChar_ne_nil c xs)
      | cons p ps =>
          rw [hs] at ih
          rw [splitOnChar_cons_eq c x xs p ps hs]
          by_cases hx : x = c
          · rw [if_pos hx]
            show charJoin c ([] :: p :: ps) = x :: xs
            show [] ++ c :: charJoin c (p :: ps) = x :: xs
            rw [ih, hx]
            rfl
          · rw [if_neg hx]
            cases ps with
            | nil =>
                show x :: p = x :: xs
                show x :: p = x :: xs
                have : charJoin c [p] = p := rfl
                rw [this] at ih
                rw [ih]
            | cons q qs =>
                show (x :: p) ++ c :: charJoin c (q :: qs) = x :: xs
                have : charJoin c (p :: q :: qs) = p ++ c :: charJoin c (q :: qs) := rfl
                rw [this] at ih
                rw [← ih]
                rfl

/-- Every piece of a split is separator-free. -/
theorem splitOnChar_no_sep (c : Char) : ∀ (l : List Char) (q : List Char),
    q ∈ splitOnChar c l → c ∉ q := by
  intro l
  induction l with
  | nil =>
      intro q hq
      simp [splitOnChar] at hq
      simp [hq]
  | cons x xs ih =>
      intro q hq
      cases hs : splitOnChar c xs with
      | nil => exact absurd hs (splitOnChar_ne_nil c xs)
      | cons p ps =>
          rw [splitOnChar_cons_eq c x xs p ps hs] at hq
          by_cases hx : x = c
          · rw [if_pos hx] at hq
            rcases List.mem_cons.mp hq with he | hm
            · simp [he]
            · exact ih q (hs ▸ hm)
          · rw [if_neg hx] at hq
            rcases List.mem_cons.mp hq with he | hm
            · subst he
              intro hc
              rcases List.mem_cons.mp hc with h1 | h2
              · exact hx h1.symm
              · exact ih p (hs ▸ List.mem_cons_self p ps) h2
            · exact ih q (hs ▸ List.mem_cons_of_mem p hm)

/-- A separator-free list has no double separator. -/
theorem hasDouble_of_no_slash : ∀ x : List Char, '/' ∉ x →
    hasDoubleSlash x = false := by
  intro x
  induction x with
  | nil => intro _; rfl
  | cons a rest ih =>
      intro h
      have ha : a ≠ '/' := fun he => h (he ▸ List.mem_cons_self a rest)
      have hrest : '/' ∉ rest := fun hm => h (List.mem_cons_of_mem a hm)
      cases rest with
      | nil => rfl
      | cons b rest2 =>
          unfold hasDoubleSlash
          rw [ih hrest]
          simp [ha]

/-- Gluing a separator between a separator-free block and a list that does
not start with the separator creates no double separator. -/
theorem hasDouble_sep_append (x J : List Char) (hx : '/' ∉ x)
    (hJ : ∀ y, J.head? = some y → ¬ y = '/') (hJd : hasDoubleSlash J = false) :
    hasDoubleSlash (x ++ '/' :: J) = false := by
  induction x with
  | nil =>
      cases J with
      | nil => rfl
      | cons b J2 =>
          show hasDoubleSlash ('/' :: b :: J2) = false
          unfold hasDoubleSlash
          rw [hJd]
          simp [hJ b rfl]
  | cons a x2 ih =>
      have ha : a ≠ '/' := fun he => hx (he ▸ List.mem_cons_self a x2)
      have hx2 : '/' ∉ x2 := fun hm => hx (List.mem_cons_of_mem a hm)
      rw [List.cons_append]
      match hr : x2 ++ '/' :: J with
      | [] => simp at hr
      | b :: w2 =>
          unfold hasDoubleSlash
          rw [← hr, ih hx2]
          simp [ha]

/-- A join of non-empty separator-free pieces is non-empty, has no double
separator, and neither starts nor ends with the separator. -/
theorem charJoin_props : ∀ ps : List (List Char), ps ≠ [] →
    (∀ p ∈ ps, p ≠ [] ∧ '/' ∉ p) →
    charJoin '/' ps ≠ [] ∧
    hasDoubleSlash (charJoin '/' ps) = false ∧
    (∀ x, (charJoin '/' ps).head? = some x → ¬ x = '/') ∧
    (∀ x, (charJoin '/' ps).getLast? = some x → ¬ x = '/') := by
  intro ps
  match ps with
  | [] => intro h; exact absurd rfl h
  | [x] =>
      intro _ hall
      obtain ⟨hne, hnos⟩ := hall x (List.mem_cons_self x [])
      show x ≠ [] ∧ _
      refine ⟨hne, hasDouble_of_no_slash x hnos, ?_, ?_⟩
      · intro y hy
        intro he
        have hm := List.mem_of_mem_head? hy
        exact hnos (he ▸ hm)
      · intro y hy
        intro he
        have hm := List.mem_of_getLast?_eq_some hy
        exact hnos (he ▸ hm)
  | x :: y :: ys =>
      intro _ hall
      obtain ⟨hxe, hxs⟩ := hall x (List.mem_cons_self x (y :: ys))
      have hrest : ∀ p ∈ y :: ys, p ≠ [] ∧ '/' ∉ p :=
        fun p hp => hall p (List.mem_cons_of_mem x hp)
      obtain ⟨hJne, hJd, hJh, hJl⟩ := charJoin_props (y :: ys) (by simp) hrest
      have hcj : charJoin '/' (x :: y :: ys) = x ++ '/' :: charJoin '/' (y :: ys) := rfl
      rw [hcj]
      refine ⟨by simp, hasDouble_sep_append x _ hxs hJh hJd, ?_, ?_⟩
      · intro z hz he
        cases x with
        | nil => exact absurd rfl hxe
        | cons a x2 =>
            rw [List.cons_append] at hz
            simp only [List.head?_cons] at hz
            injection hz with hz
            subst hz
            exact hxs (he ▸ List.mem_cons_self a x2)
      · intro z hz he
        rw [List.getLast?_append_cons] at hz
        cases hJ : charJoin '/' (y :: ys) with
        | nil => exact absurd hJ hJne
        | cons b J2 =>
            rw [hJ, List.getLast?_cons_cons] at hz
            exact hJl z (by rw [hJ]; exact hz) he

/-- Unfolding the structure field of a literal `String.mk`. -/
theorem data_mk (l : List Char) : (String.mk l).data = l := rfl

/-- Converting a canonical relative inner path (non-empty characters with no
`"//"`, not starting or ending in `/`) splits it into its components. -/
theorem convert_canonical_rel (t : List Char) (hne : t ≠ [])
    (hd : hasDoubleSlash t = false)
    (hh : ∀ x, t.head? = some x → ¬ x = '/')
    (hl : ∀ x, t.getLast? = some x → ¬ x = '/') :
    convert_inner_path_to_list_path (String.mk t) =
      .ok ((splitOnChar '/' t).map (fun cs => String.mk cs)) := by
  unfold convert_inner_path_to_list_path
  rw [data_mk]
  rw [if_neg (by rw [hd]; simp)]
  rw [if_neg (fun h => hne (congrArg String.data h))]
  have h3 : ¬ (String.mk t = "/") := by
    intro h
    have h2 : t = ['/'] := congrArg String.data h
    exact hh '/' (by rw [h2]; rfl) rfl
  rw [if_neg h3]
  match t, hne with
  | c :: t2, _ =>
      have hc : ¬ c = '/' := hh c rfl
      rw [if_neg (by simpa using hc)]
      rw [stripSlashes_noop (c :: t2) hh hl]

/-- Converting a canonical absolute inner path (a leading `/` followed by a
canonical relative part) yields `"/"` followed by the components. -/
theorem convert_canonical_abs (t : List Char) (hne : t ≠ [])
    (hd : hasDoubleSlash t = false)
    (hh : ∀ x, t.head? = some x → ¬ x = '/')
    (hl : ∀ x, t.getLast? = some x → ¬ x = '/') :
    convert_inner_path_to_list_path (String.mk ('/' :: t)) =
      .ok ("/" :: (splitOnChar '/' t).map (fun cs => String.mk cs)) := by
  unfold convert_inner_path_to_list_path
  rw [data_mk]
  match t, hne with
  | c :: t2, _ =>
      have hc : ¬ c = '/' := hh c rfl
      have hdd : hasDoubleSlash ('/' :: c :: t2) = false := by
        unfold hasDoubleSlash
        rw [hd]
        simp [hc]
      rw [if_neg (by rw [hdd]; simp)]
      rw [if_neg (fun h => by
        have := congrArg String.data h
        rw [data_mk] at this
        simp at this)]
      rw [if_neg (fun h => by
        have h2 := congrArg String.data h
        rw [data_mk] at h2
        have : (c :: t2 : List Char) = [] := by
          injection h2 with _ h3
        simp at this)]
      rw [if_pos (by rfl)]
      have hstrip : stripSlashes ('/' :: c :: t2) = c :: t2 := by
        unfold stripSlashes
        rw [List.dropWhile_cons_of_pos (by simp)]
        have hrest := stripSlashes_noop (c :: t2) hh hl
        unfold stripSlashes at hrest
        rw [dropWhile_eq_self_of_head _ (c :: t2) (fun x hx => by simpa using hh x hx)] at hrest ⊢
        exact hrest
      rw [hstrip]

/-- **C8, counterexample.** `__convert_inner_path_to_list_path` strips outer
slashes, so the two distinct valid inner paths `"a"` and `"a/"` (no adjacent
separators in either) convert to the same list path: the conversion is not
injective on valid paths, hence not a bijection. -/
theorem convert_not_injective :
    validInnerPathB "a/" = true ∧ validInnerPathB "a" = true ∧
    convert_inner_path_to_list_path "a/" = .ok ["a"] ∧
    convert_inner_path_to_list_path "a" = .ok ["a"] ∧
    ("a/" : String) ≠ "a" := by decide

/-- **C8, amended.** The textual-to-structured conversion is a *surjection*
onto well-formed list paths but not injective (trailing-slash forms collide
with their slashless counterparts): (1) structured→textual→structured is the
identity on well-formed list paths, so the conversion restricted to the
canonical texts produced by `convert_list_path_to_inner_path` is a
bijection; (2) textual→structured→textual preserves the denoted path — the
canonical text reconverts to exactly the list path of the original text —
for every valid inner path; (3) the degenerate forms convert as claimed:
`""` ↔ `[]` and `"/"` ↔ `["/"]`. -/
theorem path_conversion_roundtrip :
    (∀ l : List String, validListPathB l = true →
      convert_inner_path_to_list_path (convert_list_path_to_inner_path l) = .ok l) ∧
    (∀ (s : String) (l : List String), convert_inner_path_to_list_path s = .ok l →
      convert_inner_path_to_list_path (convert_list_path_to_inner_path l) = .ok l) ∧
    (convert_inner_path_to_list_path "" = .ok [] ∧
     convert_inner_path_to_list_path "/" = .ok ["/"] ∧
     convert_list_path_to_inner_path [] = "" ∧
     convert_list_path_to_inner_path ["/"] = "/") := by
  have hnames : ∀ l : List String, l.all validNameB = true →
      (∀ p ∈ l.map String.data, p ≠ [] ∧ '/' ∉ p) := by
    intro l hall p hp
    obtain ⟨s, hs, hsd⟩ := List.mem_map.mp hp
    have hv := List.all_eq_true.mp hall s hs
    unfold validNameB at hv
    rw [Bool.and_eq_true] at hv
    obtain ⟨hv1, hv2⟩ := hv
    constructor
    · intro he
      rw [← hsd] at he
      have : s = "" := String.ext he
      simp [this] at hv1
    · intro hm
      rw [← hsd] at hm
      simp at hv2
      exact hv2 hm
  have hcore : ∀ rest : List String, rest ≠ [] → rest.all validNameB = true →
      convert_inner_path_to_list_path (String.mk (charJoin '/' (rest.map String.data))) =
        .ok rest := by
    intro rest hrne hall
    have hpieces := hnames rest hall
    have hmapne : rest.map String.data ≠ [] := by
      simpa using hrne
    obtain ⟨hjne, hjd, hjh, hjl⟩ := charJoin_props (rest.map String.data) hmapne hpieces
    rw [convert_canonical_rel _ hjne hjd hjh hjl]
    rw [splitOnChar_charJoin '/' (rest.map String.data) hmapne
      (fun p hp => (hpieces p hp).2)]
    rw [List.map_map]
    have : (fun cs => String.mk cs) ∘ String.data = id := by
      funext s; rfl
    rw [this, List.map_id]
  have hcoreAbs : ∀ rest : List String, rest ≠ [] → rest.all validNameB = true →
      convert_inner_path_to_list_path (String.mk ('/' :: charJoin '/' (rest.map String.data))) =
        .ok ("/" :: rest) := by
    intro rest hrne hall
    have hpieces := hnames rest hall
    have hmapne : rest.map String.data ≠ [] := by
      simpa using hrne
    obtain ⟨hjne, hjd, hjh, hjl⟩ := charJoin_props (rest.map String.data) hmapne hpieces
    rw [convert_canonical_abs _ hjne hjd hjh hjl]
    rw [splitOnChar_charJoin '/' (rest.map String.data) hmapne
      (fun p hp => (hpieces p hp).2)]
    rw [List.map_map]
    have : (fun cs => String.mk cs) ∘ String.data = id := by
      funext s; rfl
    rw [this, List.map_id]
  have part1 : ∀ l : List String, validListPathB l = true →
      convert_inner_path_to_list_path (convert_list_path_to_inner_path l) = .ok l := by
    intro l hv
    match l with
    | [] => rfl
    | p :: rest =>
        unfold validListPathB at hv
        rw [Bool.and_eq_true] at hv
        obtain ⟨hp, hrest⟩ := hv
        by_cases hpr : p = "/"
        · subst hpr
          match rest with
          | [] =>
              show convert_inner_path_to_list_path ("/" ++ joinSlash []) = .ok ["/"]
              rw [show ("/" ++ joinSlash [] : String) = "/" from String.append_empty "/"]
              rfl
          | r :: rs =>
              show convert_inner_path_to_list_path ("/" ++ joinSlash (r :: rs)) = _
              have hjd : ("/" ++ joinSlash (r :: rs) : String) =
                  String.mk ('/' :: charJoin '/' ((r :: rs).map String.data)) := by
                apply String.ext
                rw [String.data_append, joinSlash_data (r :: rs)]
                rfl
              rw [hjd]
              exact hcoreAbs (r :: rs) (by simp) hrest
        · have hpv : validNameB p = true := by
            rw [Bool.or_eq_true] at hp
            rcases hp with h | h
            · exact absurd (by simpa using h) hpr
            · exact h
          have hall : (p :: rest).all validNameB = true := by
            rw [List.all_cons, hpv, hrest]
            rfl
          have hjd : convert_list_path_to_inner_path (p :: rest) =
              String.mk (charJoin '/' ((p :: rest).map String.data)) := by
            apply String.ext
            show (if p = "/" then _ else joinSlash (p :: rest)).data = _
            rw [if_neg hpr, joinSlash_data (p :: rest)]
          rw [hjd]
          exact hcore (p :: rest) (by simp) hall
  refine ⟨part1, ?_, by decide, by decide, rfl, by decide⟩
  intro s l hconv
  unfold convert_inner_path_to_list_path at hconv
  by_cases h1 : hasDoubleSlash s.data
  · rw [if_pos h1] at hconv; simp at hconv
  rw [if_neg h1] at hconv
  by_cases h2 : s = ""
  · rw [if_pos h2] at hconv
    injection hconv with hconv
    rw [← hconv]
    rfl
  rw [if_neg h2] at hconv
  by_cases h3 : s = "/"
  · rw [if_pos h3] at hconv
    injection hconv with hconv
    rw [← hconv]
    show convert_inner_path_to_list_path ("/" ++ joinSlash []) = _
    rw [show ("/" ++ joinSlash [] : String) = "/" from String.append_empty "/"]
    rfl
  rw [if_neg h3] at hconv
  -- the stripped character list and its properties
  have hex : ∃ c ∈ s.data, ¬ c = '/' := by
    match hs : s.data with
    | [] => exact absurd (String.ext hs) h2
    | [c] =>
        by_cases hc : c = '/'
        · subst hc
          exact absurd (String.ext hs) h3
        · exact ⟨c, by simp, hc⟩
    | c1 :: c2 :: rest =>
        by_cases hc1 : c1 = '/'
        · subst hc1
          by_cases hc2 : c2 = '/'
          · subst hc2
            rw [hs] at h1
            unfold hasDoubleSlash at h1
            simp at h1
          · exact ⟨c2, by simp, hc2⟩
        · exact ⟨c1, by simp, hc1⟩
  obtain ⟨c0, hc0m, hc0⟩ := hex
  have htne : stripSlashes s.data ≠ [] :=
    stripSlashes_ne_nil s.data c0 hc0m hc0
  have htd : hasDoubleSlash (stripSlashes s.data) = false :=
    stripSlashes_no_double s.data (by simpa using h1)
  have hth : ∀ x, (stripSlashes s.data).head? = some x → ¬ x = '/' :=
    fun x hx => stripSlashes_head s.data x hx
  have htl : ∀ x, (stripSlashes s.data).getLast? = some x → ¬ x = '/' :=
    fun x hx => stripSlashes_last s.data x hx
  have hsplitd : ∀ q ∈ splitOnChar '/' (stripSlashes s.data), '/' ∉ q :=
    fun q hq => splitOnChar_no_sep '/' (stripSlashes s.data) q hq
  by_cases h4 : s.data.headD ' ' = '/'
  · rw [if_pos h4] at hconv
    injection hconv with hconv
    rw [← hconv]
    show convert_inner_path_to_list_path ("/" ++ joinSlash _) = _
    have hjd : ("/" ++ joinSlash ((splitOnChar '/' (stripSlashes s.data)).map
        (fun cs => String.mk cs)) : String) =
        String.mk ('/' :: stripSlashes s.data) := by
      apply String.ext
      rw [String.data_append, joinSlash_data]
      rw [List.map_map]
      have hid : String.data ∘ (fun cs => String.mk cs) = id := by
        funext cs; rfl
      rw [hid, List.map_id, charJoin_splitOnChar]
      rfl
    rw [hjd]
    rw [convert_canonical_abs _ htne htd hth htl]
  · rw [if_neg h4] at hconv
    injection hconv with hconv
    rw [← hconv]
    have hpne : (splitOnChar '/' (stripSlashes s.data)).map (fun cs => String.mk cs) ≠ [] := by
      intro he
      rw [List.map_eq_nil_iff] at he
      exact splitOnChar_ne_nil '/' (stripSlashes s.data) he
    have hjd : convert_list_path_to_inner_path ((splitOnChar '/' (stripSlashes s.data)).map
        (fun cs => String.mk cs)) = String.mk (stripSlashes s.data) := by
      apply String.ext
      match hp : (splitOnChar '/' (stripSlashes s.data)).map (fun cs => String.mk cs), hpne with
      | q :: qs, _ =>
          show (if q = "/" then _ else joinSlash (q :: qs)).data = _
          have hqr : ¬ q = "/" := by
            intro he
            have hqm : q ∈ (splitOnChar '/' (stripSlashes s.data)).map (fun cs => String.mk cs) := by
              rw [hp]; exact List.mem_cons_self q qs
            obtain ⟨cs, hcs, hcse⟩ := List.mem_map.mp hqm
            have := hsplitd cs hcs
            rw [← hcse] at he
            have h5 : cs = ['/'] := congrArg String.data he
            rw [h5] at this
            simp at this
          rw [if_neg hqr, joinSlash_data, ← hp, List.map_map]
          have hid : String.data ∘ (fun cs => String.mk cs) = id := by
            funext cs; rfl
          rw [hid, List.map_id, charJoin_splitOnChar]
    rw [hjd]
    rw [convert_canonical_rel _ htne htd hth htl]

/-- Witness for the C8 round trips at concrete paths: the absolute list path
`["/", "a", "b"]` and the valid but non-canonical text `"a/"`. -/
theorem path_conversion_roundtrip_witness :
    convert_inner_path_to_list_path
        (convert_list_path_to_inner_path ["/", "a", "b"]) = .ok ["/", "a", "b"] ∧
    convert_inner_path_to_list_path
        (convert_list_path_to_inner_path ["a"]) = .ok ["a"] :=
  ⟨path_conversion_roundtrip.1 ["/", "a", "b"] (by decide),
   path_conversion_roundtrip.2.1 "a/" ["a"] (by decide)⟩

/-- Witness for C9: binding digest `"h9"` to the file `/f`. -/
theorem set_file_hash_changes_no_timestamps_witness :
    (⟨.dir [] (.cons "f" (.file [] "") .nil), ["/"]⟩ : DT).cwd = dtUnboundF.cwd ∧
    (⟨.dir [] (.cons "f" (.file [] "h9") .nil), ["/"]⟩ : DT).tree.scrub =
      dtUnboundF.tree.scrub ∧
    ∀ names,
      names ≠ ((goto_dir_or_stay dtUnboundF.tree dtUnboundF.cwd (["f"] : List String).dropLast)
          ++ [(["f"] : List String).getLastD ""]).drop 1 →
      contentAt (⟨.dir [] (.cons "f" (.file [] "h9") .nil), ["/"]⟩ : DT).tree names =
        contentAt dtUnboundF.tree names := by
  have := set_file_hash_changes_no_timestamps dtUnboundF ["f"] "h9"
    ⟨.dir [] (.cons "f" (.file [] "h9") .nil), ["/"]⟩ (by decide)
  exact ⟨by decide, this.2.1, this.2.2⟩
